import Mathlib

/-!
Verification of the pgraph graph library (src/src/graph.py and
src/src/_queue.py) against its natural-language specification.

The Python code is shallow-embedded: node labels are natural numbers
(Python labels are ints or strings with a total order; the order on `Nat`
plays the role of the label order used by the code), Python `None` vs
integer attributes become `Option Int`, Python dicts become association
lists with dict semantics (update-in-place for an existing key, append for
a new one, iteration in insertion order), `float("inf")` distances become
an explicit extended-integer type `XInt`, and Python exceptions become
`Except`/explicit error results.  Unbounded `while` loops are run on
explicit fuel; a run that exhausts its fuel is distinguished from a run
that returns and from a run that raises.
-/

/-- Errors raised by the embedded code.  `keyError` models Python's
`KeyError` (the spec's `NotFoundError` class), `noConnection` models the
library's `NoConnection` exception, `typeError` models Python
`TypeError` (e.g. comparing or adding `None` and an `int`), and
`attributeError` models Python `AttributeError` — raised in particular
by the loop guards `while not queue.empty()` (graph.py lines 480 and
585), since neither `FifoQueue` nor `PriorityQueue` in
src/src/_queue.py defines an `empty` method. -/
inductive GErr where
  | keyError : GErr
  | noConnection : GErr
  | typeError : GErr
  | attributeError : GErr
deriving DecidableEq, Repr

/-- Extended integers: the values taken by the `distance` dictionary in
`Graph._shortest_path` and the `capacity` dictionary in
`Graph._flux_find_path`, where Python uses `float("inf")` as the initial
value.  `inf` models `float("inf")`. -/
inductive XInt where
  | inf : XInt
  | fin : Int → XInt
deriving DecidableEq, Repr

namespace XInt

/-- `a + w` where `a` may be infinite and `w` is an `int`
(Python: `float("inf") + w == float("inf")`). -/
def addX : XInt → Int → XInt
  | inf, _ => inf
  | fin a, w => fin (a + w)

/-- Python `<` on distances (`inf` compares greater than every int and is
not `<` itself). -/
def xltB : XInt → XInt → Bool
  | inf, _ => false
  | fin _, inf => true
  | fin a, fin b => decide (a < b)

/-- Python `<=` on distances. -/
def xleB : XInt → XInt → Bool
  | _, inf => true
  | inf, fin _ => false
  | fin a, fin b => decide (a ≤ b)

/-- Python `min` on distances. -/
def minX (a b : XInt) : XInt := if xleB a b then a else b

theorem xleB_refl (a : XInt) : xleB a a = true := by
  cases a <;> simp [xleB]

theorem xleB_trans {a b c : XInt} (h1 : xleB a b = true) (h2 : xleB b c = true) :
    xleB a c = true := by
  cases a <;> cases b <;> cases c <;> simp_all [xleB] <;> omega

theorem xleB_antisymm {a b : XInt} (h1 : xleB a b = true) (h2 : xleB b a = true) :
    a = b := by
  cases a <;> cases b <;> simp_all [xleB] <;> omega

theorem xleB_of_xltB {a b : XInt} (h : xltB a b = true) : xleB a b = true := by
  cases a <;> cases b <;> simp_all [xltB, xleB] <;> omega

theorem xleB_of_not_xltB {a b : XInt} (h : xltB a b = false) : xleB b a = true := by
  cases a <;> cases b <;> simp_all [xltB, xleB] <;> omega

theorem xltB_of_xleB_of_xltB {a b c : XInt} (h1 : xleB a b = true)
    (h2 : xltB b c = true) : xltB a c = true := by
  cases a <;> cases b <;> cases c <;> simp_all [xltB, xleB] <;> omega

theorem xltB_of_xltB_of_xleB {a b c : XInt} (h1 : xltB a b = true)
    (h2 : xleB b c = true) : xltB a c = true := by
  cases a <;> cases b <;> cases c <;> simp_all [xltB, xleB] <;> omega

theorem xltB_irrefl (a : XInt) : xltB a a = false := by
  cases a <;> simp [xltB]

theorem xltB_addX_ne_inf {a : XInt} {w : Int} {b : XInt}
    (h : xltB (addX a w) b = true) : ∃ z, a = fin z := by
  cases a with
  | inf => simp [addX, xltB] at h
  | fin z => exact ⟨z, rfl⟩

theorem addX_addX (a : XInt) (w₁ w₂ : Int) :
    addX (addX a w₁) w₂ = addX a (w₁ + w₂) := by
  cases a <;> simp [addX] <;> ring

theorem xleB_addX {a b : XInt} (w : Int) (h : xleB a b = true) :
    xleB (addX a w) (addX b w) = true := by
  cases a <;> cases b <;> simp_all [addX, xleB] <;> omega

theorem xleB_fin_addX_fin {a b w : Int} (h : a ≤ b + w) :
    xleB (fin a) (addX (fin b) w) = true := by
  simp [addX, xleB]; omega

theorem ne_inf_of_xleB_fin {a : XInt} {z : Int} (h : xleB a (fin z) = true) :
    ∃ y, a = fin y := by
  cases a with
  | inf => simp [xleB] at h
  | fin y => exact ⟨y, rfl⟩

theorem xleB_addX_of_le {a : XInt} {w w' : Int} (h : w ≤ w') :
    xleB (addX a w) (addX a w') = true := by
  cases a <;> simp [addX, xleB] <;> omega

end XInt

open XInt

/-! ## Association lists with Python-dict semantics -/

/-- Python dict lookup: first (and for a real dict, only) binding wins. -/
def dget {α : Type} : List (Nat × α) → Nat → Option α
  | [], _ => none
  | (k', v) :: rest, k => if k' = k then some v else dget rest k

/-- Python dict assignment: update an existing key in place (keeping its
position in the insertion order), append a fresh key at the end. -/
def dset {α : Type} : List (Nat × α) → Nat → α → List (Nat × α)
  | [], k, v => [(k, v)]
  | (k', v') :: rest, k, v =>
      if k' = k then (k', v) :: rest else (k', v') :: dset rest k v

/-- Python dict deletion (`del d[k]`): removes all bindings of the key
(a real dict has at most one). -/
def ddel {α : Type} : List (Nat × α) → Nat → List (Nat × α)
  | [], _ => []
  | (k', v') :: rest, k =>
      if k' = k then ddel rest k else (k', v') :: ddel rest k

/-- The keys of a dict, in insertion order. -/
def dkeys {α : Type} (l : List (Nat × α)) : List Nat := l.map Prod.fst

/-- Python `k in d`. -/
def dhas {α : Type} (l : List (Nat × α)) (k : Nat) : Bool := (dget l k).isSome

theorem dget_dset_eq {α : Type} (l : List (Nat × α)) (k : Nat) (v : α) :
    dget (dset l k v) k = some v := by
  induction l with
  | nil => simp [dget, dset]
  | cons p rest ih =>
      obtain ⟨k', v'⟩ := p
      by_cases h : k' = k <;> simp [dget, dset, h, ih]

theorem dget_dset_ne {α : Type} (l : List (Nat × α)) {k k' : Nat} (v : α)
    (h : k' ≠ k) : dget (dset l k v) k' = dget l k' := by
  have h' : ¬ (k = k') := fun hh => h hh.symm
  induction l with
  | nil => simp [dget, dset, h']
  | cons p rest ih =>
      obtain ⟨k₀, v₀⟩ := p
      by_cases h0 : k₀ = k
      · subst h0
        simp [dget, dset, h']
      · by_cases h1 : k₀ = k' <;> simp [dget, dset, h0, h1, h', h, ih]

theorem dkeys_dset_of_mem {α : Type} (l : List (Nat × α)) (k : Nat) (v : α)
    (h : dhas l k = true) : dkeys (dset l k v) = dkeys l := by
  induction l with
  | nil => simp [dhas, dget] at h
  | cons p rest ih =>
      obtain ⟨k₀, v₀⟩ := p
      by_cases h0 : k₀ = k
      · simp [dset, dkeys, h0]
      · simp [dhas, dget, h0] at h
        simp [dset, dkeys, h0]
        exact ih h

theorem dkeys_dset_of_not_mem {α : Type} (l : List (Nat × α)) (k : Nat) (v : α)
    (h : dhas l k = false) : dkeys (dset l k v) = dkeys l ++ [k] := by
  induction l with
  | nil => simp [dset, dkeys]
  | cons p rest ih =>
      obtain ⟨k₀, v₀⟩ := p
      by_cases h0 : k₀ = k
      · simp [dhas, dget, h0] at h
      · have h2 : dhas rest k = false := by
          simp [dhas, dget, h0] at h
          simp [dhas, h]
        simp [dset, dkeys, h0]
        exact ih h2

theorem mem_dkeys_iff_dget {α : Type} (l : List (Nat × α)) (k : Nat) :
    k ∈ dkeys l ↔ ∃ v, dget l k = some v := by
  induction l with
  | nil => simp [dkeys, dget]
  | cons p rest ih =>
      obtain ⟨k₀, v₀⟩ := p
      by_cases h0 : k₀ = k
      · subst h0; simp [dkeys, dget]
      · simp only [dkeys, List.map_cons, List.mem_cons, dget, h0, if_false]
        constructor
        · intro hc
          rcases hc with hc | hc
          · exact absurd hc.symm h0
          · exact ih.mp hc
        · intro hc
          exact Or.inr (ih.mpr hc)

theorem dhas_iff_mem_dkeys {α : Type} (l : List (Nat × α)) (k : Nat) :
    dhas l k = true ↔ k ∈ dkeys l := by
  rw [mem_dkeys_iff_dget]
  unfold dhas
  cases h : dget l k <;> simp [h]

/-! ## Sorting labels (`sorted(...)` in `list_nodes`) -/

/-- Insert into a sorted list of labels. -/
def insSorted (x : Nat) : List Nat → List Nat
  | [] => [x]
  | y :: ys => if x ≤ y then x :: y :: ys else y :: insSorted x ys

/-- Insertion sort on labels, modelling Python's `sorted`. -/
def sortNat : List Nat → List Nat
  | [] => []
  | x :: xs => insSorted x (sortNat xs)

theorem mem_insSorted (x a : Nat) (l : List Nat) :
    a ∈ insSorted x l ↔ a = x ∨ a ∈ l := by
  induction l with
  | nil => simp [insSorted]
  | cons y ys ih =>
      by_cases h : x ≤ y
      · simp [insSorted, h]
      · simp [insSorted, h, ih]; tauto

theorem mem_sortNat (a : Nat) (l : List Nat) : a ∈ sortNat l ↔ a ∈ l := by
  induction l with
  | nil => simp [sortNat]
  | cons x xs ih => simp [sortNat, mem_insSorted, ih]

theorem insSorted_nodup {x : Nat} {l : List Nat} (hx : x ∉ l) (hl : l.Nodup) :
    (insSorted x l).Nodup := by
  induction l with
  | nil => simp [insSorted]
  | cons y ys ih =>
      simp only [List.mem_cons] at hx
      push_neg at hx
      simp only [List.nodup_cons] at hl
      by_cases hle : x ≤ y
      · simp only [insSorted, hle, if_true, List.nodup_cons, List.mem_cons]
        push_neg
        exact ⟨⟨hx.1, hx.2⟩, hl.1, hl.2⟩
      · simp only [insSorted, hle, if_false, List.nodup_cons, mem_insSorted]
        push_neg
        refine ⟨⟨fun hc => hx.1 hc.symm, hl.1⟩, ih hx.2 hl.2⟩

theorem sortNat_nodup {l : List Nat} (h : l.Nodup) : (sortNat l).Nodup := by
  induction l with
  | nil => simpa [sortNat]
  | cons x xs ih =>
      simp only [List.nodup_cons] at h
      have hx : x ∉ sortNat xs := fun hc => h.1 ((mem_sortNat x xs).mp hc)
      exact insSorted_nodup hx (ih h.2)

/-! ## The data model: `Edge`, `Node`, `Graph` (src/src/graph.py) -/

/-- `Edge` (graph.py lines 16-91): an arc's stored endpoint and its four
optional integer attributes (`None` = attribute absent). -/
structure Edge where
  end_label : Nat
  weight : Option Int
  lbound : Option Int
  ubound : Option Int
  flux : Option Int
deriving DecidableEq, Repr

/-- `Node` (graph.py lines 94-257): label, optional value, and the dict of
outgoing connections keyed by end label. -/
structure Node where
  label : Nat
  value : Option Int
  connections : List (Nat × Edge)
deriving DecidableEq, Repr

/-- `Graph` (graph.py lines 259-658): the dict from label to `Node`, plus
the `directed` flag fixed at construction. -/
structure Graph where
  node_map : List (Nat × Node)
  directed : Bool
deriving DecidableEq, Repr

namespace Graph

/-- `Graph(directed)` constructor: empty node map. -/
def empty (directed : Bool) : Graph := ⟨[], directed⟩

/-- `Graph.list_nodes` (lines 312-316): the node labels in ascending
sorted order. -/
def list_nodes (g : Graph) : List Nat := sortNat (dkeys g.node_map)

/-- `Graph.add_node(label)` with the default `value=None` (lines 269-278),
which is how `add_connection` calls it: create the node if the label is
new, otherwise leave it untouched.  (With `value=None` the update branch
`if value != None and ...` at line 277 is never taken, so this
specialisation is exact for every call site embedded here.) -/
def add_node (g : Graph) (label : Nat) : Graph :=
  if dhas g.node_map label then g
  else { g with node_map := dset g.node_map label ⟨label, none, []⟩ }

/-- `Node.connect` applied through `Graph.add_connection`: store/replace
the edge under `start`'s connections. -/
def connectAt (g : Graph) (s e : Nat) (w lb ub fl : Option Int) : Graph :=
  match dget g.node_map s with
  | some n =>
      let n' : Node := { n with connections := dset n.connections e ⟨e, w, lb, ub, fl⟩ }
      { g with node_map := dset g.node_map s n' }
  | none => g
  -- the `none` branch is unreachable at every call site: `add_connection`
  -- adds both endpoints before connecting.

/-- `Graph.add_connection` (lines 280-292): add both endpoints, then store
the edge under `start` for a directed graph, and under the smaller label
(`start <= end` test) for an undirected one. -/
def add_connection (g : Graph) (s e : Nat) (w lb ub fl : Option Int) : Graph :=
  let g₁ := add_node (add_node g s) e
  if g.directed || decide (s ≤ e) then connectAt g₁ s e w lb ub fl
  else connectAt g₁ e s w lb ub fl

/-- `Graph.is_connected` (lines 304-310): `start`'s connections contain
`end`; a missing start label gives `False` (the `KeyError` is caught).
Note there is no symmetrisation for undirected graphs here. -/
def is_connected (g : Graph) (s e : Nat) : Bool :=
  match dget g.node_map s with
  | none => false
  | some n => dhas n.connections e

/-- `Graph.backward_star` (lines 331-339): all nodes (in sorted order)
with an arc into `end_label`. -/
def backward_star (g : Graph) (e : Nat) : List Nat :=
  (list_nodes g).filter (fun x => is_connected g x e)

/-- `Graph.forward_star` (lines 318-328): for a directed graph the keys of
the node's connections (raising `KeyError` when the label is absent); for
an undirected graph the chain of those keys with the backward star. -/
def forward_star (g : Graph) (s : Nat) : Except GErr (List Nat) :=
  match dget g.node_map s with
  | none => .error .keyError
  | some n =>
      if g.directed then .ok (dkeys n.connections)
      else .ok (dkeys n.connections ++ backward_star g s)

/-- `Graph.get_node_value` (lines 364-370): `KeyError` when the label is
absent. -/
def get_node_value (g : Graph) (label : Nat) : Except GErr (Option Int) :=
  match dget g.node_map label with
  | none => .error .keyError
  | some n => .ok n.value

/-- `Graph.set_node_value` (lines 372-378). -/
def set_node_value (g : Graph) (label : Nat) (v : Option Int) :
    Except GErr Graph :=
  match dget g.node_map label with
  | none => .error .keyError
  | some n => .ok { g with node_map := dset g.node_map label { n with value := v } }

/-- Shared shape of the per-arc attribute getters (lines 380-451 going
through `Node.get_weight` etc., lines 140-234): `KeyError` when the start
label is absent from the graph, `NoConnection` when the start node has no
arc to the end label. -/
def getEdge (g : Graph) (s e : Nat) : Except GErr Edge :=
  match dget g.node_map s with
  | none => .error .keyError
  | some n =>
      match dget n.connections e with
      | none => .error .noConnection
      | some ed => .ok ed

/-- Shared shape of the per-arc attribute setters: same failures as the
getters, otherwise update the arc's record in place. -/
def updEdge (g : Graph) (s e : Nat) (f : Edge → Edge) : Except GErr Graph :=
  match dget g.node_map s with
  | none => .error .keyError
  | some n =>
      match dget n.connections e with
      | none => .error .noConnection
      | some ed =>
          let n' : Node := { n with connections := dset n.connections e (f ed) }
          .ok { g with node_map := dset g.node_map s n' }

/-- `Graph.get_weight` (lines 380-388). -/
def get_weight (g : Graph) (s e : Nat) : Except GErr (Option Int) :=
  (getEdge g s e).map Edge.weight

/-- `Graph.set_weight` (lines 390-397). -/
def set_weight (g : Graph) (s e : Nat) (w : Option Int) : Except GErr Graph :=
  updEdge g s e (fun ed => { ed with weight := w })

/-- `Graph.get_lbound` (lines 399-406). -/
def get_lbound (g : Graph) (s e : Nat) : Except GErr (Option Int) :=
  (getEdge g s e).map Edge.lbound

/-- `Graph.set_lbound` (lines 408-415). -/
def set_lbound (g : Graph) (s e : Nat) (v : Option Int) : Except GErr Graph :=
  updEdge g s e (fun ed => { ed with lbound := v })

/-- `Graph.get_ubound` (lines 417-424): the capacity accessor. -/
def get_ubound (g : Graph) (s e : Nat) : Except GErr (Option Int) :=
  (getEdge g s e).map Edge.ubound

/-- `Graph.set_ubound` (lines 426-433). -/
def set_ubound (g : Graph) (s e : Nat) (v : Option Int) : Except GErr Graph :=
  updEdge g s e (fun ed => { ed with ubound := v })

/-- `Graph.get_flux` (lines 435-442). -/
def get_flux (g : Graph) (s e : Nat) : Except GErr (Option Int) :=
  (getEdge g s e).map Edge.flux

/-- `Graph.set_flux` (lines 444-451). -/
def set_flux (g : Graph) (s e : Nat) (v : Option Int) : Except GErr Graph :=
  updEdge g s e (fun ed => { ed with flux := v })

/-- `Graph.remove_connection` (lines 294-302): `KeyError` when either the
start label is absent or the start node has no arc to the end label. -/
def remove_connection (g : Graph) (s e : Nat) : Except GErr Graph :=
  match dget g.node_map s with
  | none => .error .keyError
  | some n =>
      match dget n.connections e with
      | none => .error .keyError
      | some _ =>
          let n' : Node := { n with connections := ddel n.connections e }
          .ok { g with node_map := dset g.node_map s n' }

end Graph

/-! ## Well-formedness

Every graph reachable through the public API satisfies these conditions
(they are the usual facts about Python dicts: distinct keys, and
`add_connection` inserting both endpoints keeps the graph closed). -/

/-- Well-formed graph: node keys are distinct, each node's connection keys
are distinct, and every connection's end label is itself a node of the
graph. -/
def Graph.Wf (g : Graph) : Prop :=
  (dkeys g.node_map).Nodup ∧
  (∀ p ∈ g.node_map, (dkeys p.2.connections).Nodup) ∧
  (∀ p ∈ g.node_map, ∀ q ∈ p.2.connections, q.1 ∈ dkeys g.node_map)

instance (g : Graph) : Decidable g.Wf := by
  unfold Graph.Wf
  infer_instance

/-! ## Basic lemmas about the graph operations -/

namespace Graph

theorem directed_add_node (g : Graph) (l : Nat) :
    (add_node g l).directed = g.directed := by
  unfold add_node
  split <;> rfl

theorem dget_add_node_of_ne (g : Graph) (l k : Nat) (h : k ≠ l) :
    dget (add_node g l).node_map k = dget g.node_map k := by
  unfold add_node
  split
  · rfl
  · exact dget_dset_ne g.node_map _ h

theorem dget_add_node_self (g : Graph) (l : Nat) :
    ∃ n, dget (add_node g l).node_map l = some n ∧
      (dget g.node_map l = some n ∨
       (dget g.node_map l = none ∧ n = ⟨l, none, []⟩)) := by
  cases hg : dget g.node_map l with
  | some n =>
      have h : dhas g.node_map l = true := by unfold dhas; rw [hg]; rfl
      exact ⟨n, by unfold add_node; rw [h]; simpa, Or.inl rfl⟩
  | none =>
      have h : dhas g.node_map l = false := by unfold dhas; rw [hg]; rfl
      refine ⟨⟨l, none, []⟩, ?_, Or.inr ⟨rfl, rfl⟩⟩
      unfold add_node
      rw [h]
      simp [dget_dset_eq]

theorem directed_connectAt (g : Graph) (s e : Nat) (w lb ub fl : Option Int) :
    (connectAt g s e w lb ub fl).directed = g.directed := by
  unfold connectAt
  split <;> rfl

theorem dget_connectAt_self (g : Graph) (s e : Nat) (w lb ub fl : Option Int)
    {n : Node} (h : dget g.node_map s = some n) :
    dget (connectAt g s e w lb ub fl).node_map s =
      some { n with connections := dset n.connections e ⟨e, w, lb, ub, fl⟩ } := by
  unfold connectAt
  rw [h]
  simp [dget_dset_eq]

theorem dget_connectAt_of_ne (g : Graph) (s e : Nat) (w lb ub fl : Option Int)
    (k : Nat) (h : k ≠ s) :
    dget (connectAt g s e w lb ub fl).node_map k = dget g.node_map k := by
  unfold connectAt
  cases hg : dget g.node_map s
  · rfl
  · exact dget_dset_ne g.node_map _ h

theorem is_connected_iff (g : Graph) (s e : Nat) :
    is_connected g s e = true ↔
      ∃ n ed, dget g.node_map s = some n ∧ dget n.connections e = some ed := by
  unfold is_connected
  cases hg : dget g.node_map s with
  | none => simp
  | some n =>
      unfold dhas
      cases he : dget n.connections e <;> simp [he]

end Graph

open Graph

/-- C7 helper: what each accessor does in each of the three situations.
All eight accessors share `getEdge`/`updEdge`, so one lemma pair
suffices. -/
theorem getEdge_cases (g : Graph) (s e : Nat) :
    (dget g.node_map s = none → getEdge g s e = .error .keyError) ∧
    (∀ n, dget g.node_map s = some n → dget n.connections e = none →
       getEdge g s e = .error .noConnection) ∧
    (∀ n ed, dget g.node_map s = some n → dget n.connections e = some ed →
       getEdge g s e = .ok ed) := by
  refine ⟨?_, ?_, ?_⟩
  · intro h; unfold getEdge; rw [h]
  · intro n hn he; simp [getEdge, hn, he]
  · intro n ed hn he; simp [getEdge, hn, he]

theorem updEdge_cases (g : Graph) (s e : Nat) (f : Edge → Edge) :
    (dget g.node_map s = none → updEdge g s e f = .error .keyError) ∧
    (∀ n, dget g.node_map s = some n → dget n.connections e = none →
       updEdge g s e f = .error .noConnection) ∧
    (∀ n ed, dget g.node_map s = some n → dget n.connections e = some ed →
       ∃ g', updEdge g s e f = .ok g' ∧ getEdge g' s e = .ok (f ed) ∧
             g'.directed = g.directed) := by
  refine ⟨?_, ?_, ?_⟩
  · intro h; unfold updEdge; rw [h]
  · intro n hn he; simp [updEdge, hn, he]
  · intro n ed hn he
    set n' : Node := { n with connections := dset n.connections e (f ed) } with hn'
    refine ⟨{ g with node_map := dset g.node_map s n' }, ?_, ?_, rfl⟩
    · simp [updEdge, hn, he, hn']
    · unfold getEdge
      simp [dget_dset_eq, hn']

theorem dget_mem {α : Type} {l : List (Nat × α)} {k : Nat} {v : α}
    (h : dget l k = some v) : (k, v) ∈ l := by
  induction l with
  | nil => simp [dget] at h
  | cons p rest ih =>
      obtain ⟨k₀, v₀⟩ := p
      by_cases h0 : k₀ = k
      · subst h0
        simp [dget] at h
        simp [h]
      · simp [dget, h0] at h
        simp [ih h]

theorem is_connected_false_elim {g : Graph} {s e : Nat} {n : Node}
    (hn : dget g.node_map s = some n) (h : Graph.is_connected g s e = false) :
    dget n.connections e = none := by
  cases he : dget n.connections e with
  | none => rfl
  | some ed =>
      exfalso
      unfold Graph.is_connected at h
      rw [hn] at h
      simp [dhas, he] at h

theorem directed_add_connection (g : Graph) (s e : Nat) (w lb ub fl : Option Int) :
    (Graph.add_connection g s e w lb ub fl).directed = g.directed := by
  unfold Graph.add_connection
  split <;>
    simp [Graph.directed_connectAt, Graph.directed_add_node]

/-- Both endpoints are present after the two `add_node` calls inside
`add_connection`; the start node keeps its old record (or is fresh with no
connections). -/
theorem dget_double_add_node (g : Graph) (s e k : Nat) (hk : k = s ∨ k = e) :
    ∃ n, dget (Graph.add_node (Graph.add_node g s) e).node_map k = some n ∧
      (dget g.node_map k = some n ∨ n.connections = []) := by
  by_cases hke : k = e
  · subst hke
    obtain ⟨n, hn, hcase⟩ := Graph.dget_add_node_self (Graph.add_node g s) k
    refine ⟨n, hn, ?_⟩
    rcases hcase with hc | hc
    · by_cases hks : k = s
      · subst hks
        obtain ⟨n₀, hn₀, hcase₀⟩ := Graph.dget_add_node_self g k
        rw [hn₀] at hc
        cases hc
        rcases hcase₀ with hc₀ | hc₀
        · exact Or.inl hc₀
        · exact Or.inr (by rw [hc₀.2])
      · rw [Graph.dget_add_node_of_ne g s k hks] at hc
        exact Or.inl hc
    · exact Or.inr (by rw [hc.2])
  · rcases hk with hks | hke'
    · subst hks
      rw [Graph.dget_add_node_of_ne _ e k hke]
      obtain ⟨n₀, hn₀, hcase₀⟩ := Graph.dget_add_node_self g k
      refine ⟨n₀, hn₀, ?_⟩
      rcases hcase₀ with hc₀ | hc₀
      · exact Or.inl hc₀
      · exact Or.inr (by rw [hc₀.2])
    · exact absurd hke' hke

/-- In a canonically stored undirected graph every arc goes from the
smaller label to the larger, so there is no stored arc from a larger label
to a smaller one. -/
theorem no_arc_of_canon {g : Graph}
    (hC : ∀ p ∈ g.node_map, ∀ q ∈ p.2.connections, p.1 ≤ q.1)
    {x y : Nat} (hxy : y < x) {n : Node} (hn : dget g.node_map x = some n) :
    dget n.connections y = none := by
  cases he : dget n.connections y with
  | none => rfl
  | some ed =>
      have hmem := dget_mem hn
      have hle := hC (x, n) hmem (y, ed) (dget_mem he)
      omega

/-- **C7.** Every per-arc attribute getter and setter (`weight`,
`lbound`, `capacity`/`ubound`, `flux`) raises `KeyError` (the
`NotFoundError` class) when the start label is absent from the graph, and
the distinct `NoConnection` error when the start label is present but has
no arc to the end label; when both the start node and the arc exist, the
getter returns the attribute and the setter returns normally having
stored exactly the new value. -/
theorem C7_arc_accessor_errors (g : Graph) (s e : Nat) (v : Option Int) :
    (s ∉ dkeys g.node_map →
       Graph.get_weight g s e = .error .keyError ∧
       Graph.get_lbound g s e = .error .keyError ∧
       Graph.get_ubound g s e = .error .keyError ∧
       Graph.get_flux g s e = .error .keyError ∧
       Graph.set_weight g s e v = .error .keyError ∧
       Graph.set_lbound g s e v = .error .keyError ∧
       Graph.set_ubound g s e v = .error .keyError ∧
       Graph.set_flux g s e v = .error .keyError) ∧
    (s ∈ dkeys g.node_map → Graph.is_connected g s e = false →
       Graph.get_weight g s e = .error .noConnection ∧
       Graph.get_lbound g s e = .error .noConnection ∧
       Graph.get_ubound g s e = .error .noConnection ∧
       Graph.get_flux g s e = .error .noConnection ∧
       Graph.set_weight g s e v = .error .noConnection ∧
       Graph.set_lbound g s e v = .error .noConnection ∧
       Graph.set_ubound g s e v = .error .noConnection ∧
       Graph.set_flux g s e v = .error .noConnection) ∧
    (Graph.is_connected g s e = true →
       (∃ ed : Edge, Graph.getEdge g s e = .ok ed ∧
          Graph.get_weight g s e = .ok ed.weight ∧
          Graph.get_lbound g s e = .ok ed.lbound ∧
          Graph.get_ubound g s e = .ok ed.ubound ∧
          Graph.get_flux g s e = .ok ed.flux) ∧
       (∃ g', Graph.set_weight g s e v = .ok g' ∧ Graph.get_weight g' s e = .ok v) ∧
       (∃ g', Graph.set_lbound g s e v = .ok g' ∧ Graph.get_lbound g' s e = .ok v) ∧
       (∃ g', Graph.set_ubound g s e v = .ok g' ∧ Graph.get_ubound g' s e = .ok v) ∧
       (∃ g', Graph.set_flux g s e v = .ok g' ∧ Graph.get_flux g' s e = .ok v)) := by
  refine ⟨?_, ?_, ?_⟩
  · intro hs
    have hd : dget g.node_map s = none := by
      cases hd : dget g.node_map s with
      | none => rfl
      | some n => exact absurd ((mem_dkeys_iff_dget _ _).mpr ⟨n, hd⟩) hs
    have hg := (getEdge_cases g s e).1 hd
    refine ⟨?_, ?_, ?_, ?_, ?_, ?_, ?_, ?_⟩
    · simp [Graph.get_weight, hg, Except.map]
    · simp [Graph.get_lbound, hg, Except.map]
    · simp [Graph.get_ubound, hg, Except.map]
    · simp [Graph.get_flux, hg, Except.map]
    · exact (updEdge_cases g s e _).1 hd
    · exact (updEdge_cases g s e _).1 hd
    · exact (updEdge_cases g s e _).1 hd
    · exact (updEdge_cases g s e _).1 hd
  · intro hs hconn
    obtain ⟨n, hn⟩ := (mem_dkeys_iff_dget _ _).mp hs
    have he := is_connected_false_elim hn hconn
    have hg := (getEdge_cases g s e).2.1 n hn he
    refine ⟨?_, ?_, ?_, ?_, ?_, ?_, ?_, ?_⟩
    · simp [Graph.get_weight, hg, Except.map]
    · simp [Graph.get_lbound, hg, Except.map]
    · simp [Graph.get_ubound, hg, Except.map]
    · simp [Graph.get_flux, hg, Except.map]
    · exact (updEdge_cases g s e _).2.1 n hn he
    · exact (updEdge_cases g s e _).2.1 n hn he
    · exact (updEdge_cases g s e _).2.1 n hn he
    · exact (updEdge_cases g s e _).2.1 n hn he
  · intro hconn
    obtain ⟨n, ed, hn, he⟩ := (is_connected_iff g s e).mp hconn
    have hg := (getEdge_cases g s e).2.2 n ed hn he
    refine ⟨⟨ed, hg, ?_, ?_, ?_, ?_⟩, ?_, ?_, ?_, ?_⟩
    · simp [Graph.get_weight, hg, Except.map]
    · simp [Graph.get_lbound, hg, Except.map]
    · simp [Graph.get_ubound, hg, Except.map]
    · simp [Graph.get_flux, hg, Except.map]
    · obtain ⟨g', h1, h2, _⟩ := (updEdge_cases g s e
        (fun ed => { ed with weight := v })).2.2 n ed hn he
      exact ⟨g', h1, by simp [Graph.get_weight, h2, Except.map]⟩
    · obtain ⟨g', h1, h2, _⟩ := (updEdge_cases g s e
        (fun ed => { ed with lbound := v })).2.2 n ed hn he
      exact ⟨g', h1, by simp [Graph.get_lbound, h2, Except.map]⟩
    · obtain ⟨g', h1, h2, _⟩ := (updEdge_cases g s e
        (fun ed => { ed with ubound := v })).2.2 n ed hn he
      exact ⟨g', h1, by simp [Graph.get_ubound, h2, Except.map]⟩
    · obtain ⟨g', h1, h2, _⟩ := (updEdge_cases g s e
        (fun ed => { ed with flux := v })).2.2 n ed hn he
      exact ⟨g', h1, by simp [Graph.get_flux, h2, Except.map]⟩

/-- Witness for C7 at a concrete graph (node 1 with an arc to 2 of
weight 3): label 5 is absent, label 3 is not connected from 1, and the
arc 1 → 2 exists. -/
theorem C7_arc_accessor_errors_witness :
    Graph.get_flux (Graph.add_connection (Graph.empty true) 1 2 (some 3) none none none)
        5 2 = .error .keyError ∧
    Graph.get_weight (Graph.add_connection (Graph.empty true) 1 2 (some 3) none none none)
        1 3 = .error .noConnection ∧
    ∃ g', Graph.set_flux (Graph.add_connection (Graph.empty true) 1 2 (some 3) none none none)
        1 2 (some 7) = .ok g' ∧ Graph.get_flux g' 1 2 = .ok (some 7) := by
  refine ⟨?_, ?_, ?_⟩
  · exact ((C7_arc_accessor_errors _ 5 2 (some 7)).1 (by decide)).2.2.2.1
  · exact ((C7_arc_accessor_errors _ 1 3 (some 7)).2.1 (by decide) (by decide)).1
  · exact ((C7_arc_accessor_errors _ 1 2 (some 7)).2.2 (by decide)).2.2.2.2

/-- After `add_connection` on a directed graph the stored arc carries
exactly the four values that were passed, whatever they are. -/
theorem getEdge_add_connection_directed (g : Graph) (hdir : g.directed = true)
    (s e : Nat) (w lb ub fl : Option Int) :
    Graph.getEdge (Graph.add_connection g s e w lb ub fl) s e =
      .ok ⟨e, w, lb, ub, fl⟩ := by
  obtain ⟨n₁, hn₁, _⟩ :=
    dget_double_add_node g s e s (Or.inl rfl)
  unfold Graph.add_connection
  rw [hdir]
  simp only [Bool.true_or, if_true]
  rw [Graph.getEdge,
      Graph.dget_connectAt_self _ s e w lb ub fl hn₁]
  simp [dget_dset_eq]

/-- **C6 counterexample.** The claim says creating an edge with a negative
capacity fails with a `ValueError`-class error and is never silently
stored.  In the code `Edge.__init__` (lines 20-28) and
`Graph.add_connection` (lines 280-292) perform no validation at all:
`add_connection` is a total operation, returns normally, and the negative
capacity −5 is stored verbatim and read back. -/
theorem C6_counterexample :
    Graph.get_ubound
        (Graph.add_connection (Graph.empty true) 1 2 none none (some (-5)) none) 1 2
      = Except.ok (some (-5)) := rfl

/-- **C6 (amended).** Creating or mutating an edge performs no validation
whatsoever: for any attribute values — including a negative capacity, a
negative lbound, or lbound greater than capacity — `add_connection`
returns normally and stores the given weight, lbound, capacity and flux
verbatim, and `set_lbound`/`set_ubound` on an existing arc return
normally and store the given value verbatim; no `ValueError`-class error
exists in the code and no clamping occurs, so the invariant
`lbound ≤ capacity`, `capacity ≥ 0`, `lbound ≥ 0` is not maintained. -/
theorem C6_no_validation (g : Graph) (hdir : g.directed = true) (s e : Nat)
    (w lb ub fl v : Option Int) :
    (Graph.get_weight (Graph.add_connection g s e w lb ub fl) s e = .ok w ∧
     Graph.get_lbound (Graph.add_connection g s e w lb ub fl) s e = .ok lb ∧
     Graph.get_ubound (Graph.add_connection g s e w lb ub fl) s e = .ok ub ∧
     Graph.get_flux (Graph.add_connection g s e w lb ub fl) s e = .ok fl) ∧
    (Graph.is_connected g s e = true →
       (∃ g', Graph.set_lbound g s e v = .ok g' ∧
          Graph.get_lbound g' s e = .ok v) ∧
       (∃ g', Graph.set_ubound g s e v = .ok g' ∧
          Graph.get_ubound g' s e = .ok v)) := by
  have hg := getEdge_add_connection_directed g hdir s e w lb ub fl
  constructor
  · refine ⟨?_, ?_, ?_, ?_⟩ <;> simp [Graph.get_weight, Graph.get_lbound,
      Graph.get_ubound, Graph.get_flux, hg, Except.map]
  · intro hconn
    obtain ⟨n, ed, hn, he⟩ := (is_connected_iff g s e).mp hconn
    constructor
    · obtain ⟨g', h1, h2, _⟩ := (updEdge_cases g s e
        (fun ed => { ed with lbound := v })).2.2 n ed hn he
      exact ⟨g', h1, by simp [Graph.get_lbound, h2, Except.map]⟩
    · obtain ⟨g', h1, h2, _⟩ := (updEdge_cases g s e
        (fun ed => { ed with ubound := v })).2.2 n ed hn he
      exact ⟨g', h1, by simp [Graph.get_ubound, h2, Except.map]⟩

/-- Witness for C6 (amended) at a concrete input violating every part of
the edge invariant: lbound 5 > capacity 2, and a mutation to capacity −3
on the existing arc — all stored verbatim, no error. -/
theorem C6_no_validation_witness :
    Graph.get_lbound
        (Graph.add_connection (Graph.empty true) 1 2 none (some 5) (some 2) none) 1 2
      = .ok (some 5) ∧
    ∃ g', Graph.set_ubound
        (Graph.add_connection (Graph.empty true) 1 2 none (some 5) (some 2) none)
        1 2 (some (-3)) = .ok g' ∧
      Graph.get_ubound g' 1 2 = .ok (some (-3)) := by
  refine ⟨?_, ?_⟩
  · exact (C6_no_validation (Graph.empty true) rfl 1 2 none (some 5) (some 2) none
      (some (-3))).1.2.1
  · exact ((C6_no_validation
      (Graph.add_connection (Graph.empty true) 1 2 none (some 5) (some 2) none)
      rfl 1 2 none (some 5) (some 2) none (some (-3))).2 (by decide)).2

/-- **C9 counterexample.** The claim says that for an undirected graph,
after `add_connection(a, b)` both `is_connected(a, b)` and
`is_connected(b, a)` return `True`.  With `a = 2`, `b = 1` the arc is
canonicalised and stored as 1 → 2, and `is_connected` (lines 304-310)
only consults the start node's own connections without any
symmetrisation, so `is_connected(2, 1)` returns `False`. -/
theorem C9_counterexample :
    Graph.is_connected
        (Graph.add_connection (Graph.empty false) 2 1 none none none none) 2 1
      = false := rfl

/-- **C9 (amended).** For an undirected graph whose stored arcs are all
canonical (every stored arc runs from the smaller label to the larger,
which is the invariant `add_connection` maintains), after
`add_connection(a, b)` the arc is stored under the smaller of the two
endpoints with the passed attributes, `forward_star` of each endpoint
yields the other endpoint, and `is_connected` is *not* symmetrised: it
returns `True` in the stored direction (smaller → larger) and `False` in
the reverse direction when the endpoints differ. -/
theorem C9_undirected_canonical (g : Graph) (hdir : g.directed = false)
    (hC : ∀ p ∈ g.node_map, ∀ q ∈ p.2.connections, p.1 ≤ q.1)
    (a b : Nat) (w lb ub fl : Option Int) :
    Graph.getEdge (Graph.add_connection g a b w lb ub fl) (min a b) (max a b)
        = .ok ⟨max a b, w, lb, ub, fl⟩ ∧
    Graph.is_connected (Graph.add_connection g a b w lb ub fl) (min a b) (max a b)
        = true ∧
    (a ≠ b →
      Graph.is_connected (Graph.add_connection g a b w lb ub fl) (max a b) (min a b)
        = false) ∧
    (∃ l, Graph.forward_star (Graph.add_connection g a b w lb ub fl) a = .ok l ∧
        b ∈ l) ∧
    (∃ l, Graph.forward_star (Graph.add_connection g a b w lb ub fl) b = .ok l ∧
        a ∈ l) := by
  -- Unify the two storage branches: the arc is stored from `lo` to `hi`.
  have hbranch : ∃ lo hi, lo = min a b ∧ hi = max a b ∧
      Graph.add_connection g a b w lb ub fl =
        Graph.connectAt (Graph.add_node (Graph.add_node g a) b) lo hi w lb ub fl := by
    by_cases hab : a ≤ b
    · refine ⟨a, b, by omega, by omega, ?_⟩
      unfold Graph.add_connection
      rw [hdir]
      simp [hab]
    · refine ⟨b, a, by omega, by omega, ?_⟩
      unfold Graph.add_connection
      rw [hdir]
      simp [hab]
  obtain ⟨lo, hi, hlo, hhi, heq⟩ := hbranch
  obtain ⟨nlo, hnlo, hnlo_case⟩ :=
    dget_double_add_node g a b lo (by omega)
  have hselflo := Graph.dget_connectAt_self
    (Graph.add_node (Graph.add_node g a) b) lo hi w lb ub fl hnlo
  have hghi : ∀ k, k = a ∨ k = b →
      ∃ n, dget (Graph.add_connection g a b w lb ub fl).node_map k = some n := by
    intro k hk
    obtain ⟨nk, hnk, _⟩ := dget_double_add_node g a b k hk
    by_cases hklo : k = lo
    · subst hklo
      rw [heq, hselflo]
      exact ⟨_, rfl⟩
    · rw [heq, Graph.dget_connectAt_of_ne
            (Graph.add_node (Graph.add_node g a) b) lo hi w lb ub fl k hklo]
      exact ⟨nk, hnk⟩
  -- The stored arc lo → hi with the given attributes.
  have hedge : Graph.getEdge (Graph.add_connection g a b w lb ub fl) lo hi =
      .ok ⟨hi, w, lb, ub, fl⟩ := by
    rw [heq]
    unfold Graph.getEdge
    rw [hselflo]
    simp [dget_dset_eq]
  have hconn_lo_hi :
      Graph.is_connected (Graph.add_connection g a b w lb ub fl) lo hi = true := by
    refine (is_connected_iff _ _ _).mpr ?_
    rw [heq]
    exact ⟨_, _, hselflo, dget_dset_eq _ _ _⟩
  have hdir' : (Graph.add_connection g a b w lb ub fl).directed = false := by
    rw [directed_add_connection, hdir]
  refine ⟨by rw [← hlo, ← hhi]; exact hedge,
          by rw [← hlo, ← hhi]; exact hconn_lo_hi, ?_, ?_, ?_⟩
  · -- No arc in the reverse direction hi → lo when a ≠ b.
    intro hne
    have hlohi : lo < hi := by omega
    rw [← hlo, ← hhi]
    obtain ⟨nhi, hnhi, hnhi_case⟩ := dget_double_add_node g a b hi (by omega)
    have hnhi' : dget (Graph.add_connection g a b w lb ub fl).node_map hi
        = some nhi := by
      rw [heq, Graph.dget_connectAt_of_ne
            (Graph.add_node (Graph.add_node g a) b) lo hi w lb ub fl hi (by omega)]
      exact hnhi
    have hnone : dget nhi.connections lo = none := by
      rcases hnhi_case with hcase | hcase
      · exact no_arc_of_canon hC hlohi hcase
      · rw [hcase]; rfl
    unfold Graph.is_connected
    rw [hnhi']
    simp [dhas, hnone]
  · -- b appears in forward_star(a).
    obtain ⟨na, hna⟩ := hghi a (Or.inl rfl)
    refine ⟨dkeys na.connections ++
        Graph.backward_star (Graph.add_connection g a b w lb ub fl) a,
      by simp [Graph.forward_star, hna, hdir'], ?_⟩
    by_cases halo : a = lo
    · -- a is the storage endpoint: b = hi is among a's own connection keys.
      subst halo
      have hna' : na = { nlo with
          connections := dset nlo.connections hi ⟨hi, w, lb, ub, fl⟩ } := by
        have hx := hselflo
        rw [← heq] at hx
        rw [hna] at hx
        exact (Option.some.injEq _ _).mp hx
      rw [hna']
      refine List.mem_append.mpr (Or.inl ?_)
      have hb : b = hi := by omega
      rw [hb]
      exact (mem_dkeys_iff_dget _ _).mpr ⟨_, dget_dset_eq _ _ _⟩
    · -- a = hi: b = lo is found through the backward star.
      have hahi : a = hi := by omega
      have hblo : b = lo := by omega
      refine List.mem_append.mpr (Or.inr ?_)
      unfold Graph.backward_star
      refine List.mem_filter.mpr ⟨?_, ?_⟩
      · rw [Graph.list_nodes, mem_sortNat, mem_dkeys_iff_dget]
        exact hghi b (Or.inr rfl)
      · have h2 := hconn_lo_hi
        rw [← hblo, ← hahi] at h2
        exact h2
  · -- a appears in forward_star(b).
    obtain ⟨nb, hnb⟩ := hghi b (Or.inr rfl)
    refine ⟨dkeys nb.connections ++
        Graph.backward_star (Graph.add_connection g a b w lb ub fl) b,
      by simp [Graph.forward_star, hnb, hdir'], ?_⟩
    by_cases hblo : b = lo
    · subst hblo
      have hnb' : nb = { nlo with
          connections := dset nlo.connections hi ⟨hi, w, lb, ub, fl⟩ } := by
        have hx := hselflo
        rw [← heq] at hx
        rw [hnb] at hx
        exact (Option.some.injEq _ _).mp hx
      rw [hnb']
      refine List.mem_append.mpr (Or.inl ?_)
      have ha : a = hi := by omega
      rw [ha]
      exact (mem_dkeys_iff_dget _ _).mpr ⟨_, dget_dset_eq _ _ _⟩
    · have hbhi : b = hi := by omega
      have halo : a = lo := by omega
      refine List.mem_append.mpr (Or.inr ?_)
      unfold Graph.backward_star
      refine List.mem_filter.mpr ⟨?_, ?_⟩
      · rw [Graph.list_nodes, mem_sortNat, mem_dkeys_iff_dget]
        exact hghi a (Or.inl rfl)
      · have h2 := hconn_lo_hi
        rw [← halo, ← hbhi] at h2
        exact h2

/-- Witness for C9 (amended): adding the undirected edge (2, 1) to the
empty undirected graph. -/
theorem C9_undirected_canonical_witness :
    Graph.getEdge (Graph.add_connection (Graph.empty false) 2 1 none none none none)
        1 2 = .ok ⟨2, none, none, none, none⟩ ∧
    Graph.is_connected
        (Graph.add_connection (Graph.empty false) 2 1 none none none none) 1 2
      = true ∧
    Graph.is_connected
        (Graph.add_connection (Graph.empty false) 2 1 none none none none) 2 1
      = false ∧
    (∃ l, Graph.forward_star
        (Graph.add_connection (Graph.empty false) 2 1 none none none none) 2
      = .ok l ∧ 1 ∈ l) := by
  have h := C9_undirected_canonical (Graph.empty false) rfl
    (by intro p hp; simp [Graph.empty] at hp) 2 1 none none none none
  exact ⟨h.1, h.2.1, h.2.2.1 (by decide), h.2.2.2.1⟩

/-! ## The maximum-flow inspection helpers: `residual_graph` and
`flux_forward_star` -/

/-- Python `a < b` on two optional ints: `TypeError` unless both are
ints. -/
def pyLtOpt (a b : Option Int) : Except GErr Bool :=
  match a, b with
  | some x, some y => .ok (decide (x < y))
  | _, _ => .error .typeError

/-- Python `a - b` on two optional ints: `TypeError` unless both are
ints. -/
def pySubOpt (a b : Option Int) : Except GErr Int :=
  match a, b with
  | some x, some y => .ok (x - y)
  | _, _ => .error .typeError

/-- Python `a > 0` on an optional int: `TypeError` when `a` is `None`. -/
def pyGtZeroOpt (a : Option Int) : Except GErr Bool :=
  match a with
  | some x => .ok (decide (0 < x))
  | none => .error .typeError

/-- `_to_be_inserted` (graph.py lines 544-546):
`(not rg.is_connected(s,e)) or (rg.get_weight != None and rg.get_weight(s,e) < w)`.
Note `rg.get_weight != None` compares the bound *method* to `None` and is
therefore always `True`; the decisive test is `rg.get_weight(s,e) < w`,
which replaces an existing entry when the *existing* weight is lower than
the candidate's. -/
def to_be_inserted (rg : Graph) (s e : Nat) (w : Option Int) :
    Except GErr Bool :=
  if Graph.is_connected rg s e then do
    let wexist ← Graph.get_weight rg s e
    pyLtOpt wexist w
  else .ok true

/-- One inner-loop body of `residual_graph` (lines 550-570) for the pair
(`node`, `end_node`): possibly emit the forward residual arc, then
possibly emit the reverse residual arc with negated weight. -/
def residual_step (g : Graph) (node end_node : Nat) (rg : Graph) :
    Except GErr Graph := do
  let w ← Graph.get_weight g node end_node
  let ins ← to_be_inserted rg node end_node w
  let rg₁ ←
    if ins then do
      let ub ← Graph.get_ubound g node end_node
      let fx ← Graph.get_flux g node end_node
      let ru ← pySubOpt ub fx
      pure (if 0 < ru
            then Graph.add_connection rg node end_node w none (some ru) none
            else rg)
    else pure rg
  let w' := w.map (fun x => -x)
  let ins2 ← to_be_inserted rg₁ end_node node w'
  if ins2 then do
    let ru2 ← Graph.get_flux g node end_node
    let gt ← pyGtZeroOpt ru2
    pure (if gt
          then Graph.add_connection rg₁ end_node node w' none ru2 none
          else rg₁)
  else pure rg₁

/-- The inner `for end_node in self.forward_star(node)` loop of
`residual_graph`. -/
def residual_inner (g : Graph) (node : Nat) : List Nat → Graph →
    Except GErr Graph
  | [], rg => .ok rg
  | e :: rest, rg => do
      residual_inner g node rest (← residual_step g node e rg)

/-- The outer `for node in self.list_nodes()` loop of `residual_graph`. -/
def residual_outer (g : Graph) : List Nat → Graph → Except GErr Graph
  | [], rg => .ok rg
  | n :: rest, rg => do
      let ends ← Graph.forward_star g n
      residual_outer g rest (← residual_inner g n ends rg)

/-- `Graph.residual_graph` (lines 541-571): builds a fresh directed graph
of residual arcs. -/
def residual_graph (g : Graph) : Except GErr Graph :=
  residual_outer g (Graph.list_nodes g) (Graph.empty true)

/-- Extract the graph from a normal return (used only to state closed
evaluation facts about runs already known to return normally). -/
def okGraph (r : Except GErr Graph) : Graph :=
  match r with
  | .ok t => t
  | _ => Graph.empty true

/-- The two-arc network used to exhibit the residual-graph replacement
rule: 1 → 2 (weight 5, capacity 10, flux 3) and 2 → 1 (weight 1,
capacity 10, flux 2).  Both ordered pairs receive two residual
candidates: (1,2) gets a forward arc of weight 5 then a reverse candidate
of weight −1; (2,1) gets a reverse arc of weight −5 then a forward
candidate of weight 1. -/
def resExampleGraph : Graph :=
  Graph.add_connection
    (Graph.add_connection (Graph.empty true) 1 2 (some 5) none (some 10) (some 3))
    2 1 (some 1) none (some 10) (some 2)

/-- **C4.** The claim says the residual graph keeps, per ordered pair,
the *lowest*-weight arc, a later candidate replacing an existing entry
only when its weight is lower.  The code's `_to_be_inserted` replaces
exactly when the *existing* weight is lower than the candidate
(`rg.get_weight(s,e) < w`), i.e. it keeps the *highest*-weight arc — and
its guard `rg.get_weight != None` compares a bound method with `None`,
which is always true.  On `resExampleGraph` the pair (2,1) first receives
the reverse arc of weight −5, then the forward candidate of weight 1
*replaces* it (claim: keep −5), while the pair (1,2) keeps its weight-5
arc although a weight −1 candidate arrives later (claim: replace with
−1). -/
theorem C4_residual_keeps_higher_weight :
    (∃ rg, residual_graph resExampleGraph = .ok rg) ∧
    Graph.get_weight (okGraph (residual_graph resExampleGraph)) 2 1
      = .ok (some 1) ∧
    Graph.get_ubound (okGraph (residual_graph resExampleGraph)) 2 1
      = .ok (some 8) ∧
    Graph.get_weight (okGraph (residual_graph resExampleGraph)) 1 2
      = .ok (some 5) := by
  exact ⟨⟨okGraph (residual_graph resExampleGraph), rfl⟩, rfl, rfl, rfl⟩

/-- `Graph.flux_forward_star` (lines 341-362).  The body's first loop
header is `for node in self.forward_star(self, start_label)`: it calls
the bound method `forward_star` with an extra positional `self`, which
raises `TypeError` before a single iteration runs (and the loop bodies
call `set.add(node)` on the `set` class, another `TypeError`).  The
function therefore raises `TypeError` on *every* invocation, whatever
the graph and start label. -/
def flux_forward_star (g : Graph) (start : Nat) : Except GErr (List Nat) :=
  .error .typeError

/-- **C5.** The claim says `flux_forward_star(u)` yields exactly the
residually reachable neighbours of `u`.  The code instead raises
`TypeError` on every call (see `flux_forward_star` above): here on a
graph where the claim demands the single residual neighbour 2 (arc 1 → 2
with flux 0 < capacity 1), the call errors instead of yielding
anything. -/
theorem C5_flux_forward_star_raises :
    flux_forward_star
        (Graph.add_connection (Graph.empty true) 1 2 none none (some 1) (some 0)) 1
      = .error .typeError ∧
    (∀ (g : Graph) (s : Nat), flux_forward_star g s = .error .typeError) :=
  ⟨rfl, fun _ _ => rfl⟩

/-! ## Frontier queues (src/src/_queue.py)

Both disciplines are modelled by their observable behaviour on the queue
contents.  `FifoQueue` keeps a plain list.  `PriorityQueue` stores
(priority, counter, item) triples with a monotonically increasing
counter, and `heapq.heappop` removes the lexicographically least triple;
since counters are unique along any real run, the item component never
takes part in the comparison. -/

/-- Lexicographic `<=` on (priority, counter, item) triples, matching
Python tuple comparison as used by `heapq`. -/
def lexLe (a b : XInt × Nat × Nat) : Bool :=
  xltB a.1 b.1 ||
    (decide (a.1 = b.1) &&
      (decide (a.2.1 < b.2.1) ||
        (decide (a.2.1 = b.2.1) && decide (a.2.2 ≤ b.2.2))))

/-- Remove the lexicographically least triple from a list (the observable
effect of `heapq.heappop` on the heap's multiset of entries). -/
def selectMin : List (XInt × Nat × Nat) →
    Option ((XInt × Nat × Nat) × List (XInt × Nat × Nat))
  | [] => none
  | x :: xs =>
      match selectMin xs with
      | none => some (x, [])
      | some (m, rest) => if lexLe x m then some (x, xs) else some (m, x :: rest)

theorem selectMin_eq_none {l : List (XInt × Nat × Nat)} :
    selectMin l = none ↔ l = [] := by
  cases l with
  | nil => simp [selectMin]
  | cons x xs =>
      simp only [selectMin]
      cases h : selectMin xs with
      | none => simp
      | some p =>
          obtain ⟨m, rest⟩ := p
          by_cases hle : lexLe x m <;> simp [hle]

theorem selectMin_cover {l : List (XInt × Nat × Nat)}
    {m : XInt × Nat × Nat} {rest : List (XInt × Nat × Nat)}
    (h : selectMin l = some (m, rest)) : ∀ t ∈ l, t = m ∨ t ∈ rest := by
  induction l generalizing m rest with
  | nil => simp [selectMin] at h
  | cons x xs ih =>
      simp only [selectMin] at h
      cases hs : selectMin xs with
      | none =>
          rw [hs] at h
          have hx : x = m := by
            simp at h
            exact h.1
          have hxs : xs = [] := selectMin_eq_none.mp hs
          intro t ht
          rw [hxs] at ht
          simp at ht
          exact Or.inl (ht.trans hx)
      | some p =>
          obtain ⟨m', rest'⟩ := p
          rw [hs] at h
          cases hle : lexLe x m' with
          | true =>
              simp [hle] at h
              intro t ht
              rcases List.mem_cons.mp ht with h1 | h1
              · exact Or.inl (h1.trans h.1)
              · exact Or.inr (h.2 ▸ h1)
          | false =>
              simp [hle] at h
              intro t ht
              rcases List.mem_cons.mp ht with h1 | h1
              · refine Or.inr ?_
                rw [← h.2]
                exact List.mem_cons.mpr (Or.inl h1)
              · rcases ih hs t h1 with h2 | h2
                · exact Or.inl (h2.trans h.1)
                · refine Or.inr ?_
                  rw [← h.2]
                  exact List.mem_cons.mpr (Or.inr h2)

/-- A frontier-queue discipline together with the facts about its
observable contents that the shortest-path proofs use. -/
structure QModel where
  Q : Type
  emptyQ : Q
  put : Q → Nat → XInt → Q
  get : Q → Option (Nat × Q)
  isIn : Q → Nat → Bool
  items : Q → List Nat
  get_none : ∀ q, get q = none → items q = []
  get_keep : ∀ q u q' x, get q = some (u, q') → x ∈ items q → x ≠ u →
    x ∈ items q'
  put_items : ∀ q x p, items (put q x p) = items q ++ [x]
  isIn_iff : ∀ q x, isIn q x = true ↔ x ∈ items q

/-- `FifoQueue` (_queue.py lines 49-85): `put` appends, `get` pops the
head, `is_in` is membership. -/
def fifoModel : QModel where
  Q := List Nat
  emptyQ := []
  put q x _ := q ++ [x]
  get q := match q with
    | [] => none
    | x :: xs => some (x, xs)
  isIn q x := decide (x ∈ q)
  items q := q
  get_none := by
    intro q h
    cases q with
    | nil => rfl
    | cons x xs => simp at h
  get_keep := by
    intro q u q' x hget hx hne
    cases q with
    | nil => simp at hget
    | cons y ys =>
        simp at hget
        obtain ⟨h1, h2⟩ := hget
        rw [← h2]
        rcases List.mem_cons.mp hx with h3 | h3
        · exact absurd (h3.trans h1) hne
        · exact h3
  put_items := by intro q x p; rfl
  isIn_iff := by intro q x; simp

/-- `PriorityQueue` (_queue.py lines 88-137): entries are (value,
counter, item) triples, `put` appends with the next counter,
`get` removes the lexicographically least triple and returns its item,
`is_in` scans the items. -/
def prioModel : QModel where
  Q := List (XInt × Nat × Nat) × Nat
  emptyQ := ([], 0)
  put q x p := (q.1 ++ [(p, q.2, x)], q.2 + 1)
  get q := match selectMin q.1 with
    | none => none
    | some (m, rest) => some (m.2.2, (rest, q.2))
  isIn q x := decide (x ∈ q.1.map (fun t => t.2.2))
  items q := q.1.map (fun t => t.2.2)
  get_none := by
    intro q h
    dsimp only at h ⊢
    cases hs : selectMin q.1 with
    | none => rw [selectMin_eq_none.mp hs]; rfl
    | some p => rw [hs] at h; simp at h
  get_keep := by
    intro q u q' x hget hx hne
    dsimp only at hget hx ⊢
    cases hs : selectMin q.1 with
    | none => rw [hs] at hget; simp at hget
    | some p =>
        obtain ⟨m, rest⟩ := p
        rw [hs] at hget
        simp at hget
        obtain ⟨hu, hq'⟩ := hget
        obtain ⟨t, hmem, ht⟩ := List.mem_map.mp hx
        rcases selectMin_cover hs _ hmem with hc | hc
        · exact absurd (by rw [← ht, hc, hu]) hne
        · rw [← hq']
          exact List.mem_map.mpr ⟨t, hc, ht⟩
  put_items := by intro q x p; simp
  isIn_iff := by intro q x; simp

/-! ## The shared shortest-path loop `Graph._shortest_path`
(lines 453-506) -/

/-- Pointwise update of a total map (the embedding of a Python dict
assignment on an already fully initialised dict). -/
def upd {α : Type} (f : Nat → α) (k : Nat) (v : α) : Nat → α :=
  fun x => if x = k then v else f x

theorem upd_self {α : Type} (f : Nat → α) (k : Nat) (v : α) : upd f k v k = v := by
  simp [upd]

theorem upd_ne {α : Type} (f : Nat → α) {k x : Nat} (v : α) (h : x ≠ k) :
    upd f k v x = f x := by
  simp [upd, h]

/-- `if not connection_weight: connection_weight = 0` (lines 484-485):
`None` is falsy and becomes 0; the int 0 is also falsy and "becomes" 0;
any other int is kept. -/
def pyWeight (w : Option Int) : Int := w.getD 0

/-- The in-flight state of `_shortest_path`: the frontier queue and the
`distance` and `father` dictionaries. -/
structure SPState (M : QModel) where
  q : M.Q
  dist : Nat → XInt
  father : Nat → Option Nat

/-- The body of the inner `for neighbour in self.forward_star(node)` loop
(lines 482-490) for one neighbour `v` of the dequeued node `u`: fetch the
weight (propagating any exception), treat an absent weight as 0, and when
`distance[u] + w < distance[v]` set the distance and father of `v` and
enqueue `v` (at its new distance) unless it is already in the frontier. -/
def relaxNb (g : Graph) (M : QModel) (u : Nat) (s : SPState M) (v : Nat) :
    Except GErr (SPState M) :=
  match Graph.get_weight g u v with
  | .error e => .error e
  | .ok w? =>
      let w := pyWeight w?
      if xltB (addX (s.dist u) w) (s.dist v) then
        let d' := addX (s.dist u) w
        let q' := if M.isIn s.q v then s.q else M.put s.q v d'
        .ok ⟨q', upd s.dist v d', upd s.father v (some u)⟩
      else .ok s

/-- The inner loop over all of `forward_star(u)` in order. -/
def relaxList (g : Graph) (M : QModel) (u : Nat) :
    List Nat → SPState M → Except GErr (SPState M)
  | [], s => .ok s
  | v :: vs, s =>
      match relaxNb g M u s v with
      | .error e => .error e
      | .ok s' => relaxList g M u vs s'

/-- Outcome of running an embedded Python loop on fuel. -/
inductive RunRes (α : Type) where
  | ok : α → RunRes α
  | exc : GErr → RunRes α
  | nofuel : RunRes α
deriving DecidableEq, Repr

/-- `Graph._shortest_path` (lines 453-506).  Before the loop nothing can
raise: `father` and `distance` are plain dict assignments over
`list_nodes` (with `distance[start_node] = 0` and
`father[start_node] = None` written unconditionally), and `queue.put`
appends (FIFO) or `heappush`es (priority).  Then the loop guard
`while not queue.empty()` (line 480) is evaluated — but neither
`FifoQueue` nor `PriorityQueue` (src/src/_queue.py) defines an `empty`
method (the queue API has only `put`, `get`, `is_in` and `qsize`), so
the attribute lookup raises `AttributeError` before the first
iteration, on every graph and every start label.  Nothing catches it,
so `_shortest_path` never reaches the relaxation body (lines 481-490,
embedded as `relaxNb`/`relaxList` above) or the result-building loop
(lines 499-506). -/
def shortest_path (g : Graph) (M : QModel) (start : Nat) : RunRes Graph :=
  .exc .attributeError

/-- `Graph.dijkstra` (lines 508-514): `_shortest_path` with a
`PriorityQueue`. -/
def dijkstra (g : Graph) (start : Nat) : RunRes Graph :=
  shortest_path g prioModel start

/-- `Graph.bellman` (lines 516-522): `_shortest_path` with a
`FifoQueue`. -/
def bellman (g : Graph) (start : Nat) : RunRes Graph :=
  shortest_path g fifoModel start

/-- **C2.** In the shared shortest-path loop, for a dequeued node `u` and
a neighbour `v` in `forward_star(u)` whose connection is stored (so that
the weight fetch returns), the weight `w` is the stored weight with
absence treated as 0, and exactly when `distance[u] + w < distance[v]`
the step sets `distance[v] := distance[u] + w`, sets `father[v] := u`,
and enqueues `v` at its new distance only if `v` is not already in the
frontier; otherwise the state is left completely unchanged. -/
theorem C2_relax_step (g : Graph) (M : QModel) (u v : Nat) (s : SPState M)
    (w? : Option Int) (hw : Graph.get_weight g u v = .ok w?) :
    (w? = none → pyWeight w? = 0) ∧
    (xltB (addX (s.dist u) (pyWeight w?)) (s.dist v) = true →
       relaxNb g M u s v = .ok
         ⟨if M.isIn s.q v then s.q
          else M.put s.q v (addX (s.dist u) (pyWeight w?)),
          upd s.dist v (addX (s.dist u) (pyWeight w?)),
          upd s.father v (some u)⟩) ∧
    (xltB (addX (s.dist u) (pyWeight w?)) (s.dist v) = false →
       relaxNb g M u s v = .ok s) := by
  refine ⟨fun h => by rw [h]; rfl, ?_, ?_⟩
  · intro hlt
    unfold relaxNb
    rw [hw]
    simp only [hlt, if_true]
  · intro hlt
    unfold relaxNb
    rw [hw]
    simp only [hlt, Bool.false_eq_true, if_false]

/-- Witness for C2: in the graph 1 → 2 (weight 3) with the FIFO
discipline, dequeuing 1 at distance 0 updates node 2 (whose distance is
infinite) to distance 3 with father 1 and enqueues it; with
`distance[2]` already 3 the same relaxation leaves the state
unchanged. -/
theorem C2_relax_step_witness :
    relaxNb (Graph.add_connection (Graph.empty true) 1 2 (some 3) none none none)
        fifoModel 1
        ⟨[], upd (fun _ => XInt.inf) 1 (fin 0), fun _ => none⟩ 2
      = .ok ⟨[2], upd (upd (fun _ => XInt.inf) 1 (fin 0)) 2 (fin 3),
             upd (fun _ => none) 2 (some 1)⟩ ∧
    relaxNb (Graph.add_connection (Graph.empty true) 1 2 (some 3) none none none)
        fifoModel 1
        ⟨[], upd (upd (fun _ => XInt.inf) 1 (fin 0)) 2 (fin 3), fun _ => none⟩ 2
      = .ok ⟨[], upd (upd (fun _ => XInt.inf) 1 (fin 0)) 2 (fin 3),
             fun _ => none⟩ := by
  constructor
  · have h := (C2_relax_step
      (Graph.add_connection (Graph.empty true) 1 2 (some 3) none none none)
      fifoModel 1 2
      ⟨[], upd (fun _ => XInt.inf) 1 (fin 0), fun _ => none⟩
      (some 3) rfl).2.1 (by rfl)
    rw [h]
    rfl
  · have h := (C2_relax_step
      (Graph.add_connection (Graph.empty true) 1 2 (some 3) none none none)
      fifoModel 1 2
      ⟨[], upd (upd (fun _ => XInt.inf) 1 (fin 0)) 2 (fin 3), fun _ => none⟩
      (some 3) rfl).2.2 (by rfl)
    rw [h]

theorem getEdge_ok_elim {g : Graph} {s e : Nat} {ed : Edge}
    (h : Graph.getEdge g s e = .ok ed) :
    ∃ n, dget g.node_map s = some n ∧ dget n.connections e = some ed := by
  unfold Graph.getEdge at h
  cases hn : dget g.node_map s with
  | none => rw [hn] at h; simp at h
  | some n =>
      rw [hn] at h
      dsimp only at h
      cases he : dget n.connections e with
      | none => rw [he] at h; simp at h
      | some ed' =>
          rw [he] at h
          simp at h
          exact ⟨n, rfl, h ▸ he⟩

theorem mem_dset_elim {α : Type} {l : List (Nat × α)} {k : Nat} {v : α}
    {q : Nat × α} (h : q ∈ dset l k v) : q = (k, v) ∨ q ∈ l := by
  induction l with
  | nil => simp [dset] at h; exact Or.inl h
  | cons p rest ih =>
      obtain ⟨k₀, v₀⟩ := p
      unfold dset at h
      by_cases h0 : k₀ = k
      · rw [if_pos h0] at h
        rcases List.mem_cons.mp h with h1 | h1
        · exact Or.inl (by rw [h1, h0])
        · exact Or.inr (List.mem_cons.mpr (Or.inr h1))
      · rw [if_neg h0] at h
        rcases List.mem_cons.mp h with h1 | h1
        · exact Or.inr (List.mem_cons.mpr (Or.inl h1))
        · rcases ih h1 with h2 | h2
          · exact Or.inl h2
          · exact Or.inr (List.mem_cons.mpr (Or.inr h2))

/-- **C1.** [code bug] The claim says terminated `dijkstra` and
`bellman` runs assign the same distances to reachable nodes; in fact
neither entry point can terminate normally on any input: the loop guard
`while not queue.empty()` (graph.py line 480) raises `AttributeError`
on every call, because neither `PriorityQueue` (used by `dijkstra`) nor
`FifoQueue` (used by `bellman`) defines an `empty` method
(src/src/_queue.py has only `put`, `get`, `is_in`, `qsize`).  Both
functions raise before the first loop iteration, so there are no runs
to compare. -/
theorem C1_shortest_path_attribute_error :
    ∀ (g : Graph) (start : Nat),
      dijkstra g start = .exc .attributeError ∧
      bellman g start = .exc .attributeError :=
  fun _ _ => ⟨rfl, rfl⟩

/-- **C10.** [code bug] The claim describes the shape of the returned
result tree; in fact `dijkstra` and `bellman` never return a result
tree on any input: every call raises `AttributeError` at the loop guard
`while not queue.empty()` (graph.py line 480, no `empty` method on
either queue class), so the result-building code (lines 499-506) is
unreachable. -/
theorem C10_no_result_tree :
    ∀ (g : Graph) (start : Nat) (t : Graph),
      dijkstra g start ≠ .ok t ∧ bellman g start ≠ .ok t :=
  fun _ _ _ => ⟨(fun h => nomatch h), (fun h => nomatch h)⟩

/-! ## The maximum-flow engine: `_flux_find_path`, `_push_flux`,
`max_flux` (lines 573-644) -/

/-- `Graph._flux_find_path` (lines 573-622).  The pre-loop code cannot
raise: a fresh `FifoQueue`, `queue.put(start_label)`, and dict
assignments for `father`/`capacity` over `list_nodes`.  The `try` body
then evaluates the guard `while not queue.empty()` (line 585) —
`FifoQueue` has no `empty` method, so the attribute lookup raises
`AttributeError`; the handler catches only the local `FoundException`,
so the error propagates on every input.  The BFS body (lines 586-613),
the path reconstruction (lines 614-620) and the deliberate
`NoConnection` at line 621 are unreachable. -/
def flux_find_path (g : Graph) (start endl : Nat) :
    RunRes (Option (List Nat × XInt)) :=
  .exc .attributeError

/-- One step of `_push_flux` (lines 624-633) for the consecutive pair
(`a`, `b`): if the forward edge exists, add the bottleneck to its flux,
otherwise subtract it from the reverse edge's flux.  `TypeError` models
Python's `None + int` when the touched edge has no flux attribute;
`NoConnection` propagates from `get_flux`/`set_flux` when neither edge
exists. -/
def push_step (g : Graph) (a b : Nat) (c : Int) : Except GErr Graph :=
  if Graph.is_connected g a b then
    match Graph.get_flux g a b with
    | .error e => .error e
    | .ok none => .error .typeError
    | .ok (some f) => Graph.set_flux g a b (some (f + c))
  else
    match Graph.get_flux g b a with
    | .error e => .error e
    | .ok none => .error .typeError
    | .ok (some f) => Graph.set_flux g b a (some (f - c))

/-- `Graph._push_flux` (lines 624-633) over the whole path.  An exception
raised mid-path leaves the earlier steps' mutations in place, so the
function returns the graph reached so far together with the exception, if
any — mirroring Python's in-place mutation with a propagating
exception. -/
def push_flux (g : Graph) : List Nat → Int → Graph × Option GErr
  | [], _ => (g, none)
  | [_], _ => (g, none)
  | a :: b :: rest, c =>
      match push_step g a b c with
      | .error e => (g, some e)
      | .ok g' => push_flux g' (b :: rest) c

/-- `Graph.max_flux` (lines 635-644), on fuel for its `while True` loop:
each iteration calls `_flux_find_path` and pushes the returned
bottleneck along the returned path; only `NoConnection` is caught (the
`except NoConnection: pass` that is meant to end the loop).  Since
`_flux_find_path` raises `AttributeError` on every call, the first
iteration always raises, and the handler does not apply. -/
def max_flux (g : Graph) (s t : Nat) : Nat → RunRes Graph
  | 0 => .nofuel
  | fuel + 1 =>
      match flux_find_path g s t with
      | .ok none => .ok g
      | .exc .noConnection => .ok g
      | .exc e => .exc e
      | .nofuel => .nofuel
      | .ok (some (path, capW)) =>
          match capW with
          | inf => .exc .typeError
          | fin c =>
              match push_flux g path c with
              | (g', none) => max_flux g' s t fuel
              | (g', some .noConnection) => .ok g'
              | (_, some e) => .exc e

/-- **C3.** [code bug] The claim asserts flow conservation after
`max_flux(source, sink)` returns; in fact `max_flux` never returns
normally.  Its first iteration calls `_flux_find_path`, whose loop
guard `while not queue.empty()` (graph.py line 585) raises
`AttributeError` because `FifoQueue` (src/src/_queue.py) defines no
`empty` method; the inner `try` catches only `FoundException` and the
outer `except NoConnection` in `max_flux` does not catch it either.  So
on every graph, source and sink, `_flux_find_path` raises
`AttributeError` and so does every `max_flux` call that executes an
iteration; the push phase and any conservation property of the result
are unreachable. -/
theorem C3_max_flux_attribute_error :
    ∀ (g : Graph) (s t fuel : Nat),
      flux_find_path g s t = .exc .attributeError ∧
      max_flux g s t (fuel + 1) = .exc .attributeError :=
  fun _ _ _ _ => ⟨rfl, rfl⟩

/-! ## Flow accounting for the (unreachable) push phase

`_push_flux` itself is embedded above and, were it ever reached,
pushing along a connected path would succeed and telescope each node's
in-minus-out balance; these theorems analyse that dead code. -/

/-- The flux stored on the arc `u → v`, counted 0 when the arc is absent
or its flux attribute unset — the summand of the claim's incoming and
outgoing sums. -/
def fluxD (g : Graph) (u v : Nat) : Int :=
  match dget g.node_map u with
  | none => 0
  | some n =>
      match dget n.connections v with
      | none => 0
      | some ed => ed.flux.getD 0

/-- The sum of flux over the incoming arcs of `v`. -/
def influx (g : Graph) (v : Nat) : Int :=
  ((dkeys g.node_map).map (fun u => fluxD g u v)).sum

/-- The sum of flux over the outgoing arcs of `v`. -/
def outflux (g : Graph) (v : Nat) : Int :=
  ((dkeys g.node_map).map (fun u => fluxD g v u)).sum

/-- Flow conservation at every non-source, non-sink node. -/
def Conserved (g : Graph) (s t : Nat) : Prop :=
  ∀ v ∈ dkeys g.node_map, v ≠ s → v ≠ t → influx g v = outflux g v

/-- Every arc of the graph has both its flux and its capacity set. -/
def AllArcsFluxUbound (g : Graph) : Prop :=
  ∀ p ∈ g.node_map, ∀ q ∈ p.2.connections,
    q.2.flux ≠ none ∧ q.2.ubound ≠ none

/-- The node record produced by `set_flux`: the found node with the one
arc's flux replaced. -/
def setFluxNode (n : Node) (b : Nat) (ed : Edge) (v : Option Int) : Node :=
  { n with connections := dset n.connections b { ed with flux := v } }

theorem set_flux_ok_elim {g : Graph} {a b : Nat} {v : Option Int}
    {g' : Graph} (h : Graph.set_flux g a b v = .ok g') :
    ∃ n ed, dget g.node_map a = some n ∧ dget n.connections b = some ed ∧
      g' = { g with node_map := dset g.node_map a (setFluxNode n b ed v) } := by
  unfold Graph.set_flux Graph.updEdge at h
  cases hn : dget g.node_map a with
  | none => rw [hn] at h; simp at h
  | some n =>
      rw [hn] at h
      dsimp only at h
      cases he : dget n.connections b with
      | none => rw [he] at h; simp at h
      | some ed =>
          rw [he] at h
          simp at h
          exact ⟨n, ed, rfl, he, h.symm⟩

theorem get_flux_ok_elim {g : Graph} {s e : Nat} {fx : Option Int}
    (h : Graph.get_flux g s e = .ok fx) :
    ∃ ed, Graph.getEdge g s e = .ok ed ∧ ed.flux = fx := by
  unfold Graph.get_flux at h
  cases hg : Graph.getEdge g s e with
  | error e' => rw [hg] at h; simp [Except.map] at h
  | ok ed =>
      rw [hg] at h
      simp [Except.map] at h
      exact ⟨ed, rfl, h⟩

theorem is_connected_of_getEdge {g : Graph} {s e : Nat} {ed : Edge}
    (h : Graph.getEdge g s e = .ok ed) :
    Graph.is_connected g s e = true := by
  obtain ⟨n, hn, he⟩ := getEdge_ok_elim h
  exact (is_connected_iff g s e).mpr ⟨n, ed, hn, he⟩

theorem map_sum_update {l : List Nat} (hnd : l.Nodup) {a : Nat}
    (ha : a ∈ l) (F F' : Nat → Int)
    (hne : ∀ x ∈ l, x ≠ a → F' x = F x) :
    (l.map F').sum = (l.map F).sum + (F' a - F a) := by
  induction l with
  | nil => simp at ha
  | cons x xs ih =>
      simp only [List.nodup_cons] at hnd
      rcases List.mem_cons.mp ha with hax | hax
      · subst hax
        have hxs : ∀ y ∈ xs, F' y = F y := by
          intro y hy
          exact hne y (List.mem_cons.mpr (Or.inr hy))
            (fun hc => hnd.1 (hc ▸ hy))
        simp only [List.map_cons, List.sum_cons]
        rw [List.map_congr_left hxs]
        ring
      · have hxa : x ≠ a := fun hc => hnd.1 (hc ▸ hax)
        simp only [List.map_cons, List.sum_cons]
        rw [hne x (by simp) hxa,
            ih hnd.2 hax (fun y hy hya => hne y (by simp [hy]) hya)]
        ring

/-- All observable effects of a successful `set_flux`: the node and
connection structure is untouched, only the one arc's flux changes. -/
theorem set_flux_effects {g : Graph} {a b : Nat} {z : Int} {f : Int}
    {g' : Graph} (hwf : g.Wf)
    (hold : Graph.get_flux g a b = .ok (some f))
    (h : Graph.set_flux g a b (some z) = .ok g') :
    dkeys g'.node_map = dkeys g.node_map ∧
    (∀ u v', fluxD g' u v' =
      if u = a ∧ v' = b then z else fluxD g u v') ∧
    g'.Wf ∧
    (AllArcsFluxUbound g → AllArcsFluxUbound g') ∧
    (∀ x y, Graph.is_connected g' x y = Graph.is_connected g x y) ∧
    a ∈ dkeys g.node_map ∧ b ∈ dkeys g.node_map := by
  obtain ⟨n, ed, hn, he, hg'⟩ := set_flux_ok_elim h
  have hedflux : ed.flux = some f := by
    obtain ⟨ed', hed', hfx⟩ := get_flux_ok_elim hold
    obtain ⟨n', hn', he'⟩ := getEdge_ok_elim hed'
    rw [hn] at hn'
    cases hn'
    rw [he] at he'
    cases he'
    exact hfx
  have hamem : a ∈ dkeys g.node_map := (mem_dkeys_iff_dget _ _).mpr ⟨n, hn⟩
  have hbmem : b ∈ dkeys g.node_map :=
    hwf.2.2 (a, n) (dget_mem hn) (b, ed) (dget_mem he)
  have hbconn : b ∈ dkeys n.connections := (mem_dkeys_iff_dget _ _).mpr ⟨ed, he⟩
  have hkeysconn : dkeys (dset n.connections b { ed with flux := some z })
      = dkeys n.connections :=
    dkeys_dset_of_mem _ _ _ ((dhas_iff_mem_dkeys _ _).mpr hbconn)
  have hkeys : dkeys g'.node_map = dkeys g.node_map := by
    rw [hg']
    exact dkeys_dset_of_mem _ _ _ ((dhas_iff_mem_dkeys _ _).mpr hamem)
  have hget' : ∀ u, dget g'.node_map u =
      if u = a then some (setFluxNode n b ed (some z))
      else dget g.node_map u := by
    intro u
    rw [hg']
    by_cases hu : u = a
    · subst hu; simp [dget_dset_eq]
    · simp [hu, dget_dset_ne _ _ hu]
  have hfluxD : ∀ u v', fluxD g' u v' =
      if u = a ∧ v' = b then z else fluxD g u v' := by
    intro u v'
    by_cases hu : u = a
    · subst hu
      unfold fluxD
      rw [hget' u, if_pos rfl, hn]
      dsimp only [setFluxNode]
      by_cases hv : v' = b
      · subst hv
        rw [dget_dset_eq]
        simp
      · rw [dget_dset_ne _ _ hv]
        simp [hv]
    · unfold fluxD
      rw [hget' u, if_neg hu]
      simp [hu]
  refine ⟨hkeys, hfluxD, ?_, ?_, ?_, hamem, hbmem⟩
  · refine ⟨?_, ?_, ?_⟩
    · rw [hkeys]; exact hwf.1
    · intro p hp
      rw [hg'] at hp
      rcases mem_dset_elim hp with h1 | h1
      · rw [h1]
        dsimp only [setFluxNode]
        rw [hkeysconn]
        exact hwf.2.1 (a, n) (dget_mem hn)
      · exact hwf.2.1 p h1
    · intro p hp q hq
      rw [hkeys]
      rw [hg'] at hp
      rcases mem_dset_elim hp with h1 | h1
      · rw [h1] at hq
        dsimp only at hq
        rcases mem_dset_elim hq with h2 | h2
        · rw [h2]
          exact hbmem
        · exact hwf.2.2 (a, n) (dget_mem hn) q h2
      · exact hwf.2.2 p h1 q hq
  · intro hattr p hp q hq
    rw [hg'] at hp
    rcases mem_dset_elim hp with h1 | h1
    · rw [h1] at hq
      dsimp only at hq
      rcases mem_dset_elim hq with h2 | h2
      · rw [h2]
        dsimp only [setFluxNode]
        exact ⟨by simp, (hattr (a, n) (dget_mem hn) (b, ed) (dget_mem he)).2⟩
      · exact hattr (a, n) (dget_mem hn) q h2
    · exact hattr p h1 q hq
  · intro x y
    unfold Graph.is_connected
    rw [hget' x]
    by_cases hx : x = a
    · subst hx
      rw [hn]
      unfold dhas
      rw [if_pos rfl]
      dsimp only [setFluxNode]
      by_cases hy : y = b
      · subst hy
        rw [dget_dset_eq, he]
        rfl
      · rw [dget_dset_ne _ _ hy]
    · rw [if_neg hx]

/-- 1 at `x`, 0 elsewhere — the per-endpoint indicator in the
telescoping flux argument. -/
def ind (x v : Nat) : Int := if v = x then 1 else 0

theorem influx_outflux_delta {g g' : Graph} {A B : Nat} {z f : Int}
    (hwf : g.Wf) (hold : Graph.get_flux g A B = .ok (some f))
    (h : Graph.set_flux g A B (some z) = .ok g') :
    ∀ v, influx g' v = influx g v + (if v = B then z - f else 0) ∧
         outflux g' v = outflux g v + (if v = A then z - f else 0) := by
  obtain ⟨hkeys, hfluxD, hwf', _, _, hA, hB⟩ := set_flux_effects hwf hold h
  have hfold : fluxD g A B = f := by
    obtain ⟨ed', hed', hfx⟩ := get_flux_ok_elim hold
    obtain ⟨n', hn', he'⟩ := getEdge_ok_elim hed'
    unfold fluxD
    rw [hn']
    dsimp only
    rw [he']
    dsimp only
    rw [hfx]
    rfl
  intro v
  constructor
  · unfold influx
    rw [hkeys]
    by_cases hv : v = B
    · subst hv
      rw [if_pos rfl]
      rw [map_sum_update hwf.1 hA (fun u => fluxD g u v)
            (fun u => fluxD g' u v)
            (fun x _ hx => by dsimp only; rw [hfluxD]; simp [hx])]
      have h1 : fluxD g' A v = z := by rw [hfluxD]; simp
      rw [h1, hfold]
    · rw [if_neg hv]
      have hc : ((dkeys g.node_map).map (fun u => fluxD g' u v))
          = (dkeys g.node_map).map (fun u => fluxD g u v) :=
        List.map_congr_left (fun u _ => by rw [hfluxD]; simp [hv])
      rw [hc]
      ring
  · unfold outflux
    rw [hkeys]
    by_cases hv : v = A
    · subst hv
      rw [if_pos rfl]
      rw [map_sum_update hwf.1 hB (fun u => fluxD g v u)
            (fun u => fluxD g' v u)
            (fun x _ hx => by dsimp only; rw [hfluxD]; simp [hx])]
      have h1 : fluxD g' v B = z := by rw [hfluxD]; simp
      rw [h1, hfold]
    · rw [if_neg hv]
      have hc : ((dkeys g.node_map).map (fun u => fluxD g' v u))
          = (dkeys g.node_map).map (fun u => fluxD g v u) :=
        List.map_congr_left (fun u _ => by rw [hfluxD]; simp [hv])
      rw [hc]
      ring

theorem get_flux_eval {g : Graph} {s e : Nat} {n : Node} {ed : Edge}
    (hn : dget g.node_map s = some n) (he : dget n.connections e = some ed) :
    Graph.get_flux g s e = .ok ed.flux := by
  unfold Graph.get_flux Graph.getEdge
  rw [hn]
  dsimp only
  rw [he]
  rfl

theorem set_flux_success {g : Graph} {s e : Nat} {n : Node} {ed : Edge}
    (hn : dget g.node_map s = some n) (he : dget n.connections e = some ed)
    (v : Option Int) : ∃ g', Graph.set_flux g s e v = .ok g' := by
  unfold Graph.set_flux Graph.updEdge
  rw [hn]
  dsimp only
  rw [he]
  exact ⟨_, rfl⟩

/-- The flux change of one push step, together with the preservation of
all structure: the (in − out) balance changes by `+c` at the step's
target and `−c` at its source, whichever of the two stored directions
carried the push. -/
theorem push_step_ok {g : Graph} {a b : Nat} {c : Int} {g' : Graph}
    (hwf : g.Wf) (h : push_step g a b c = .ok g') :
    dkeys g'.node_map = dkeys g.node_map ∧ g'.Wf ∧
    (AllArcsFluxUbound g → AllArcsFluxUbound g') ∧
    (∀ x y, Graph.is_connected g' x y = Graph.is_connected g x y) ∧
    (∀ v, influx g' v - outflux g' v =
      influx g v - outflux g v + c * (ind b v - ind a v)) := by
  unfold push_step at h
  by_cases hconn : Graph.is_connected g a b = true
  · rw [if_pos hconn] at h
    cases hfx : Graph.get_flux g a b with
    | error e => rw [hfx] at h; simp at h
    | ok fxo =>
        rw [hfx] at h
        cases fxo with
        | none => simp at h
        | some f =>
            obtain ⟨hkeys, hfluxD, hwf', hattr, hconns, hA, hB⟩ :=
              set_flux_effects hwf hfx h
            have hdelta := influx_outflux_delta hwf hfx h
            refine ⟨hkeys, hwf', hattr, hconns, ?_⟩
            intro v
            obtain ⟨hin, hout⟩ := hdelta v
            rw [hin, hout]
            unfold ind
            split_ifs <;> ring
  · rw [if_neg hconn] at h
    cases hfx : Graph.get_flux g b a with
    | error e => rw [hfx] at h; simp at h
    | ok fxo =>
        rw [hfx] at h
        cases fxo with
        | none => simp at h
        | some f =>
            obtain ⟨hkeys, hfluxD, hwf', hattr, hconns, hA, hB⟩ :=
              set_flux_effects hwf hfx h
            have hdelta := influx_outflux_delta hwf hfx h
            refine ⟨hkeys, hwf', hattr, hconns, ?_⟩
            intro v
            obtain ⟨hin, hout⟩ := hdelta v
            rw [hin, hout]
            unfold ind
            split_ifs <;> ring

/-- Consecutive path nodes are connected by a stored arc in at least one
direction. -/
def connOK (g : Graph) (a b : Nat) : Prop :=
  Graph.is_connected g a b = true ∨ Graph.is_connected g b a = true

theorem push_step_success {g : Graph} {a b : Nat} (c : Int)
    (hattr : AllArcsFluxUbound g) (hc : connOK g a b) :
    ∃ g', push_step g a b c = .ok g' := by
  unfold push_step
  by_cases hconn : Graph.is_connected g a b = true
  · rw [if_pos hconn]
    obtain ⟨n, ed, hn, he⟩ := (is_connected_iff g a b).mp hconn
    have hfx := get_flux_eval hn he
    have hsome := (hattr (a, n) (dget_mem hn) (b, ed) (dget_mem he)).1
    cases hfl : ed.flux with
    | none => exact absurd hfl hsome
    | some f =>
        rw [hfl] at hfx
        rw [hfx]
        exact set_flux_success hn he _
  · rw [if_neg hconn]
    have hba : Graph.is_connected g b a = true := by
      rcases hc with h1 | h1
      · exact absurd h1 hconn
      · exact h1
    obtain ⟨n, ed, hn, he⟩ := (is_connected_iff g b a).mp hba
    have hfx := get_flux_eval hn he
    have hsome := (hattr (b, n) (dget_mem hn) (a, ed) (dget_mem he)).1
    cases hfl : ed.flux with
    | none => exact absurd hfl hsome
    | some f =>
        rw [hfl] at hfx
        rw [hfx]
        exact set_flux_success hn he _

theorem getLastD_irrel : ∀ (l : List Nat) (x y : Nat), l ≠ [] →
    l.getLastD x = l.getLastD y := by
  intro l
  induction l with
  | nil => intro x y h; exact absurd rfl h
  | cons a t ih =>
      intro x y _
      cases t with
      | nil => rfl
      | cons b t' =>
          simp only [List.getLastD_cons]

/-- Pushing the bottleneck along a whole connected path succeeds (no
`NoConnection` is raised mid-push given every consecutive pair is stored
in some direction and every arc has its flux set), preserves the
structure, and changes each node's (in − out) balance by
`c · ([v = last] − [v = head])` — the telescoping that yields flow
conservation at interior nodes. -/
theorem push_ok : ∀ (path : List Nat) (g : Graph) (c : Int),
    g.Wf → AllArcsFluxUbound g → List.Chain' (connOK g) path →
    ∃ g', push_flux g path c = (g', none) ∧
      dkeys g'.node_map = dkeys g.node_map ∧ g'.Wf ∧ AllArcsFluxUbound g' ∧
      (∀ v, influx g' v - outflux g' v =
        influx g v - outflux g v +
          c * (ind (path.getLastD 0) v - ind (path.headD 0) v)) := by
  intro path
  induction path with
  | nil =>
      intro g c hwf hattr _
      exact ⟨g, rfl, rfl, hwf, hattr, fun v => by simp⟩
  | cons a rest ih =>
      cases rest with
      | nil =>
          intro g c hwf hattr _
          exact ⟨g, rfl, rfl, hwf, hattr, fun v => by simp⟩
      | cons b rest' =>
          intro g c hwf hattr hchain
          rw [List.chain'_cons] at hchain
          obtain ⟨hab, hchain'⟩ := hchain
          obtain ⟨g₁, hstep⟩ := push_step_success c hattr hab
          obtain ⟨hkeys, hwf₁, hattr₁, hconns₁, hdelta₁⟩ := push_step_ok hwf hstep
          have hchain₁ : List.Chain' (connOK g₁) (b :: rest') := by
            refine List.Chain'.imp ?_ hchain'
            intro x y hxy
            unfold connOK at hxy ⊢
            rw [hconns₁ x y, hconns₁ y x]
            exact hxy
          obtain ⟨g', hrec, hkeys', hwf', hattr', hdelta'⟩ :=
            ih g₁ c hwf₁ (hattr₁ hattr) hchain₁
          refine ⟨g', ?_, hkeys'.trans hkeys, hwf', hattr', ?_⟩
          · unfold push_flux
            rw [hstep]
            exact hrec
          · intro v
            have h1 := hdelta' v
            have h2 := hdelta₁ v
            rw [h2] at h1
            rw [h1]
            have hlast : (a :: b :: rest').getLastD 0
                = (b :: rest').getLastD 0 := by
              rw [List.getLastD_cons]
              exact getLastD_irrel _ a 0 (by simp)
            rw [hlast]
            simp only [List.headD_cons]
            ring

/-! ## Object-identity model for `copy` (C8)

Python `Graph.copy` / `Node.copy` / `Edge.copy` (lines 646-652, 236-242,
70-74) build new `Node` and `Edge` objects; whether the clone is
independent of the original is a question about object identity, so this
section re-embeds graphs with an explicit heap: `Node` and `Edge` objects
live at numeric ids in a heap, a graph's `node_map` maps labels to node
ids and a node's `connections` maps end labels to edge ids.  Allocation
hands out `next` and bumps it, modelling `Edge(...)` / `Node(...)`
construction; in-place attribute assignment mutates the heap cell. -/

/-- An `Edge` object: `end_label` plus the four attributes (lines
20-28). -/
structure EdgeO where
  end_label : Nat
  weight : Option Int
  lbound : Option Int
  ubound : Option Int
  flux : Option Int
deriving DecidableEq, Repr

/-- A `Node` object: label, value, and connections as end label ↦ edge
id. -/
structure NodeO where
  label : Nat
  value : Option Int
  connections : List (Nat × Nat)
deriving DecidableEq, Repr

/-- The heap: node objects and edge objects at numeric ids, with the next
fresh id. -/
structure Heap where
  nodes : List (Nat × NodeO)
  edges : List (Nat × EdgeO)
  next : Nat
deriving DecidableEq, Repr

/-- A graph value: the `directed` flag and `node_map` as label ↦ node
id. -/
structure GraphR where
  directed : Bool
  node_map : List (Nat × Nat)
deriving DecidableEq, Repr

/-- The connection list of the node object at id `nid`, empty when the id
is dangling. -/
def connsOf (h : Heap) (nid : Nat) : List (Nat × Nat) :=
  match dget h.nodes nid with
  | none => []
  | some nd => nd.connections

/-- `Node(...)`: allocate a fresh node object. -/
def allocNode (h : Heap) (nd : NodeO) : Heap × Nat :=
  (⟨dset h.nodes h.next nd, h.edges, h.next + 1⟩, h.next)

/-- `Edge(...)`: allocate a fresh edge object. -/
def allocEdge (h : Heap) (eo : EdgeO) : Heap × Nat :=
  (⟨h.nodes, dset h.edges h.next eo, h.next + 1⟩, h.next)

/-- `Edge.copy` (lines 70-74): a fresh edge object with the same five
fields.  (The dangling-id branch is unreachable on well-formed heaps.) -/
def edge_copy (h : Heap) (eid : Nat) : Heap × Nat :=
  match dget h.edges eid with
  | none => allocEdge h ⟨0, none, none, none, none⟩
  | some eo => allocEdge h eo

/-- The `for key in self.connections.keys()` loop of `Node.copy` (lines
240-241): copy each edge object, binding the same keys to the fresh
ids. -/
def node_copy_conns (h : Heap) : List (Nat × Nat) → Heap × List (Nat × Nat)
  | [] => (h, [])
  | (k, eid) :: rest =>
      let r₁ := edge_copy h eid
      let r₂ := node_copy_conns r₁.1 rest
      (r₂.1, (k, r₁.2) :: r₂.2)

/-- `Node.copy` (lines 236-242): a fresh node object with the same label
and value and a freshly copied connection dict. -/
def node_copy (h : Heap) (nid : Nat) : Heap × Nat :=
  match dget h.nodes nid with
  | none => allocNode h ⟨0, none, []⟩
  | some nd =>
      let r := node_copy_conns h nd.connections
      allocNode r.1 ⟨nd.label, nd.value, r.2⟩

/-- The `for label in self.node_map.keys()` loop of `Graph.copy` (lines
650-651). -/
def graph_copy_nodes (h : Heap) : List (Nat × Nat) → Heap × List (Nat × Nat)
  | [] => (h, [])
  | (lbl, nid) :: rest =>
      let r₁ := node_copy h nid
      let r₂ := graph_copy_nodes r₁.1 rest
      (r₂.1, (lbl, r₁.2) :: r₂.2)

/-- `Graph.copy` (lines 646-652): a new graph with the same `directed`
flag whose `node_map` binds each label to a deep-copied node. -/
def graph_copy (h : Heap) (g : GraphR) : Heap × GraphR :=
  let r := graph_copy_nodes h g.node_map
  (r.1, ⟨g.directed, r.2⟩)

/-- `Graph.set_node_value` (lines 372-378): mutate the node object in
place.  A missing label raises `KeyError`, mutating nothing, which this
total model renders as the identity. -/
def setValueR (h : Heap) (g : GraphR) (lbl : Nat) (v : Option Int) :
    Heap × GraphR :=
  match dget g.node_map lbl with
  | none => (h, g)
  | some nid =>
      match dget h.nodes nid with
      | none => (h, g)
      | some nd =>
          (⟨dset h.nodes nid { nd with value := v }, h.edges, h.next⟩, g)

/-- The shared shape of `Graph.set_weight` / `set_lbound` / `set_ubound` /
`set_flux` (lines 389-581): look the edge object up through the start
node and mutate one attribute in place; `KeyError` / `NoConnection` on a
missing label or arc mutate nothing. -/
def setEdgeAttrR (h : Heap) (g : GraphR) (s e : Nat) (f : EdgeO → EdgeO) :
    Heap × GraphR :=
  match dget g.node_map s with
  | none => (h, g)
  | some nid =>
      match dget h.nodes nid with
      | none => (h, g)
      | some nd =>
          match dget nd.connections e with
          | none => (h, g)
          | some eid =>
              match dget h.edges eid with
              | none => (h, g)
              | some eo => (⟨h.nodes, dset h.edges eid (f eo), h.next⟩, g)

/-- `Graph.add_node` with the default `value=None` (lines 269-278): a
fresh node object when the label is new, nothing otherwise. -/
def add_nodeR (h : Heap) (g : GraphR) (lbl : Nat) : Heap × GraphR :=
  if dhas g.node_map lbl then (h, g)
  else
    let r := allocNode h ⟨lbl, none, []⟩
    (r.1, ⟨g.directed, dset g.node_map lbl r.2⟩)

/-- `Node.connect` (lines 105-109): allocate a fresh `Edge` object and
bind it under the end label in the start node's connection dict. -/
def connectAtR (h : Heap) (g : GraphR) (s e : Nat) (eo : EdgeO) :
    Heap × GraphR :=
  match dget g.node_map s with
  | none => (h, g)
  | some nid =>
      match dget h.nodes nid with
      | none => (h, g)
      | some nd =>
          (⟨dset h.nodes nid
              { nd with connections := dset nd.connections e h.next },
            dset h.edges h.next eo, h.next + 1⟩, g)

/-- `Graph.add_connection` (lines 280-292) in the heap model: ensure both
endpoint nodes exist, then connect in the canonical direction. -/
def addConnR (h : Heap) (g : GraphR) (s e : Nat)
    (w lb ub fl : Option Int) : Heap × GraphR :=
  let r₁ := add_nodeR h g s
  let r₂ := add_nodeR r₁.1 r₁.2 e
  if g.directed || decide (s ≤ e) then
    connectAtR r₂.1 r₂.2 s e ⟨e, w, lb, ub, fl⟩
  else connectAtR r₂.1 r₂.2 e s ⟨s, w, lb, ub, fl⟩

/-- `Graph.remove_connection` (lines 294-302): delete the arc from the
start node's connection dict in place; `KeyError` mutates nothing. -/
def removeConnR (h : Heap) (g : GraphR) (s e : Nat) : Heap × GraphR :=
  match dget g.node_map s with
  | none => (h, g)
  | some nid =>
      match dget h.nodes nid with
      | none => (h, g)
      | some nd =>
          match dget nd.connections e with
          | none => (h, g)
          | some _ =>
              (⟨dset h.nodes nid
                  { nd with connections := ddel nd.connections e },
                h.edges, h.next⟩, g)

/-- The mutations the claim quantifies over: node values, the four edge
attributes, adding and removing connections. -/
inductive Mut where
  | setValue (lbl : Nat) (v : Option Int)
  | setWeight (s e : Nat) (w : Option Int)
  | setLbound (s e : Nat) (w : Option Int)
  | setUbound (s e : Nat) (w : Option Int)
  | setFlux (s e : Nat) (w : Option Int)
  | addConn (s e : Nat) (w lb ub fl : Option Int)
  | removeConn (s e : Nat)
deriving DecidableEq, Repr

def applyMut (h : Heap) (g : GraphR) : Mut → Heap × GraphR
  | .setValue lbl v => setValueR h g lbl v
  | .setWeight s e w => setEdgeAttrR h g s e (fun eo => { eo with weight := w })
  | .setLbound s e w => setEdgeAttrR h g s e (fun eo => { eo with lbound := w })
  | .setUbound s e w => setEdgeAttrR h g s e (fun eo => { eo with ubound := w })
  | .setFlux s e w => setEdgeAttrR h g s e (fun eo => { eo with flux := w })
  | .addConn s e w lb ub fl => addConnR h g s e w lb ub fl
  | .removeConn s e => removeConnR h g s e

def applyMuts (h : Heap) (g : GraphR) : List Mut → Heap × GraphR
  | [] => (h, g)
  | mu :: ms =>
      let r := applyMut h g mu
      applyMuts r.1 r.2 ms

/-- Observation of a node's value attribute through the heap. -/
def obsValue (h : Heap) (g : GraphR) (lbl : Nat) : Option (Option Int) :=
  match dget g.node_map lbl with
  | none => none
  | some nid =>
      match dget h.nodes nid with
      | none => none
      | some nd => some nd.value

/-- Observation of the full attribute record of the arc `s → e` through
the heap. -/
def obsEdge (h : Heap) (g : GraphR) (s e : Nat) : Option EdgeO :=
  match dget g.node_map s with
  | none => none
  | some nid =>
      match dget h.nodes nid with
      | none => none
      | some nd =>
          match dget nd.connections e with
          | none => none
          | some eid => dget h.edges eid

/-- Every object id reachable from the graph (its node ids and their
nodes' edge ids) satisfies `P`. -/
def IdsOn (h : Heap) (g : GraphR) (P : Nat → Prop) : Prop :=
  ∀ p ∈ g.node_map, P p.2 ∧ ∀ q ∈ connsOf h p.2, P q.2

/-- Every id reachable from the graph resolves to an object. -/
def Resolves (h : Heap) (g : GraphR) : Prop :=
  ∀ p ∈ g.node_map, (dget h.nodes p.2).isSome = true ∧
    ∀ q ∈ connsOf h p.2, (dget h.edges q.2).isSome = true

/-- The node object ids a graph owns. -/
def nodeIds (g : GraphR) : List Nat := g.node_map.map Prod.snd

/-- The edge object ids a graph owns. -/
def edgeIds (h : Heap) (g : GraphR) : List Nat :=
  (g.node_map.map (fun p => (connsOf h p.2).map Prod.snd)).join

theorem mem_ddel_sub {α : Type} {l : List (Nat × α)} {k : Nat}
    {q : Nat × α} (h : q ∈ ddel l k) : q ∈ l := by
  induction l with
  | nil => simp [ddel] at h
  | cons p rest ih =>
      unfold ddel at h
      by_cases hk : p.1 = k
      · obtain ⟨k', v'⟩ := p
        rw [if_pos hk] at h
        exact List.mem_cons_of_mem _ (ih h)
      · obtain ⟨k', v'⟩ := p
        rw [if_neg hk] at h
        rcases List.mem_cons.mp h with h' | h'
        · exact List.mem_cons.mpr (Or.inl h')
        · exact List.mem_cons_of_mem _ (ih h')

theorem IdsOn_mono {h : Heap} {g : GraphR} {P Q : Nat → Prop}
    (hpq : ∀ i, P i → Q i) (hids : IdsOn h g P) : IdsOn h g Q := by
  intro p hp
  obtain ⟨h1, h2⟩ := hids p hp
  exact ⟨hpq _ h1, fun q hq => hpq _ (h2 q hq)⟩

theorem IdsOn_and {h : Heap} {g : GraphR} {P Q : Nat → Prop}
    (hp : IdsOn h g P) (hq : IdsOn h g Q) :
    IdsOn h g (fun i => P i ∧ Q i) := by
  intro p hpm
  obtain ⟨p1, p2⟩ := hp p hpm
  obtain ⟨q1, q2⟩ := hq p hpm
  exact ⟨⟨p1, q1⟩, fun q hqm => ⟨p2 q hqm, q2 q hqm⟩⟩

/-- `IdsOn` transfers to a heap that agrees on the `P`-ids, since the
reachable connection lists live at `P` node ids. -/
theorem IdsOn_congr {h h' : Heap} {g : GraphR} {P : Nat → Prop}
    (hids : IdsOn h g P)
    (hn : ∀ i, P i → dget h'.nodes i = dget h.nodes i) :
    IdsOn h' g P := by
  intro p hp
  obtain ⟨h1, h2⟩ := hids p hp
  refine ⟨h1, ?_⟩
  have hc : connsOf h' p.2 = connsOf h p.2 := by
    unfold connsOf
    rw [hn _ h1]
  rw [hc]
  exact h2

theorem obsValue_congr {h h' : Heap} {g : GraphR} {P : Nat → Prop}
    (hids : IdsOn h g P)
    (hn : ∀ i, P i → dget h'.nodes i = dget h.nodes i) :
    ∀ lbl, obsValue h' g lbl = obsValue h g lbl := by
  intro lbl
  unfold obsValue
  cases hm : dget g.node_map lbl with
  | none => rfl
  | some nid =>
      have hp := (hids (lbl, nid) (dget_mem hm)).1
      dsimp only
      rw [hn nid hp]

theorem obsEdge_congr {h h' : Heap} {g : GraphR} {P : Nat → Prop}
    (hids : IdsOn h g P)
    (hn : ∀ i, P i → dget h'.nodes i = dget h.nodes i)
    (he : ∀ i, P i → dget h'.edges i = dget h.edges i) :
    ∀ s e, obsEdge h' g s e = obsEdge h g s e := by
  intro s e
  unfold obsEdge
  cases hm : dget g.node_map s with
  | none => rfl
  | some nid =>
      obtain ⟨hp, hq⟩ := hids (s, nid) (dget_mem hm)
      dsimp only
      rw [hn nid hp]
      cases hnd : dget h.nodes nid with
      | none => rfl
      | some nd =>
          dsimp only
          cases hce : dget nd.connections e with
          | none => rfl
          | some eid =>
              dsimp only
              refine he eid (hq (e, eid) ?_)
              unfold connsOf
              rw [hnd]
              exact dget_mem hce

/-- What one mutation step guarantees: `next` grows, heap cells at
non-`P` ids are untouched, and the resulting graph's ids are still
in-bounds `P` ids. -/
def MStep (P : Nat → Prop) (h : Heap) (g : GraphR) (h' : Heap)
    (g' : GraphR) : Prop :=
  h.next ≤ h'.next ∧
  (∀ i, ¬P i → dget h'.nodes i = dget h.nodes i) ∧
  (∀ i, ¬P i → dget h'.edges i = dget h.edges i) ∧
  IdsOn h' g' (fun i => i < h'.next ∧ P i)

theorem MStep_trans {P : Nat → Prop} {h h₁ h₂ : Heap}
    {g g₁ g₂ : GraphR} (m1 : MStep P h g h₁ g₁)
    (m2 : MStep P h₁ g₁ h₂ g₂) : MStep P h g h₂ g₂ := by
  obtain ⟨a1, b1, c1, d1⟩ := m1
  obtain ⟨a2, b2, c2, d2⟩ := m2
  exact ⟨le_trans a1 a2, fun i hi => (b2 i hi).trans (b1 i hi),
    fun i hi => (c2 i hi).trans (c1 i hi), d2⟩

theorem MStep_refl {P : Nat → Prop} {h : Heap} {g : GraphR}
    (hids : IdsOn h g (fun i => i < h.next ∧ P i)) : MStep P h g h g :=
  ⟨le_refl _, fun _ _ => rfl, fun _ _ => rfl, hids⟩

theorem connsOf_eq_of_nodes {h h' : Heap} (hN : h'.nodes = h.nodes) :
    ∀ p, connsOf h' p = connsOf h p := by
  intro p
  unfold connsOf
  rw [hN]

theorem setValueR_mstep {P : Nat → Prop} {h : Heap} {g : GraphR}
    {lbl : Nat} {v : Option Int} {h' : Heap} {g' : GraphR}
    (hids : IdsOn h g (fun i => i < h.next ∧ P i))
    (hdo : setValueR h g lbl v = (h', g')) : MStep P h g h' g' := by
  unfold setValueR at hdo
  cases hm : dget g.node_map lbl with
  | none => rw [hm] at hdo; cases hdo; exact MStep_refl hids
  | some nid =>
      rw [hm] at hdo
      dsimp only at hdo
      cases hnd : dget h.nodes nid with
      | none => rw [hnd] at hdo; cases hdo; exact MStep_refl hids
      | some nd =>
          rw [hnd] at hdo
          dsimp only at hdo
          cases hdo
          obtain ⟨⟨hlt, hP⟩, _⟩ := hids (lbl, nid) (dget_mem hm)
          refine ⟨le_refl _, ?_, fun _ _ => rfl, ?_⟩
          · intro i hi
            exact dget_dset_ne _ _ (fun he => hi (he ▸ hP))
          · intro p hp
            obtain ⟨⟨plt, pP⟩, hq⟩ := hids p hp
            refine ⟨⟨plt, pP⟩, ?_⟩
            intro q hq'
            apply hq
            by_cases hpn : p.2 = nid
            · unfold connsOf at hq' ⊢
              rw [hpn] at hq' ⊢
              dsimp only at hq'
              rw [dget_dset_eq] at hq'
              rw [hnd]
              exact hq'
            · unfold connsOf at hq' ⊢
              dsimp only at hq'
              rw [dget_dset_ne _ _ hpn] at hq'
              exact hq'

theorem setEdgeAttrR_mstep {P : Nat → Prop} {h : Heap} {g : GraphR}
    {s e : Nat} {f : EdgeO → EdgeO} {h' : Heap} {g' : GraphR}
    (hids : IdsOn h g (fun i => i < h.next ∧ P i))
    (hdo : setEdgeAttrR h g s e f = (h', g')) : MStep P h g h' g' := by
  unfold setEdgeAttrR at hdo
  cases hm : dget g.node_map s with
  | none => rw [hm] at hdo; cases hdo; exact MStep_refl hids
  | some nid =>
      rw [hm] at hdo
      dsimp only at hdo
      cases hnd : dget h.nodes nid with
      | none => rw [hnd] at hdo; cases hdo; exact MStep_refl hids
      | some nd =>
          rw [hnd] at hdo
          dsimp only at hdo
          cases hce : dget nd.connections e with
          | none => rw [hce] at hdo; cases hdo; exact MStep_refl hids
          | some eid =>
              rw [hce] at hdo
              dsimp only at hdo
              cases heo : dget h.edges eid with
              | none => rw [heo] at hdo; cases hdo; exact MStep_refl hids
              | some eo =>
                  rw [heo] at hdo
                  dsimp only at hdo
                  cases hdo
                  obtain ⟨_, hq⟩ := hids (s, nid) (dget_mem hm)
                  have hqe : eid < h.next ∧ P eid := by
                    apply hq (e, eid)
                    unfold connsOf
                    rw [hnd]
                    exact dget_mem hce
                  refine ⟨le_refl _, fun _ _ => rfl, ?_, ?_⟩
                  · intro i hi
                    exact dget_dset_ne _ _ (fun he => hi (he ▸ hqe.2))
                  · intro p hp
                    obtain ⟨pb, hq'⟩ := hids p hp
                    refine ⟨pb, ?_⟩
                    intro q hq''
                    apply hq'
                    rw [connsOf_eq_of_nodes rfl] at hq''
                    exact hq''

theorem removeConnR_mstep {P : Nat → Prop} {h : Heap} {g : GraphR}
    {s e : Nat} {h' : Heap} {g' : GraphR}
    (hids : IdsOn h g (fun i => i < h.next ∧ P i))
    (hdo : removeConnR h g s e = (h', g')) : MStep P h g h' g' := by
  unfold removeConnR at hdo
  cases hm : dget g.node_map s with
  | none => rw [hm] at hdo; cases hdo; exact MStep_refl hids
  | some nid =>
      rw [hm] at hdo
      dsimp only at hdo
      cases hnd : dget h.nodes nid with
      | none => rw [hnd] at hdo; cases hdo; exact MStep_refl hids
      | some nd =>
          rw [hnd] at hdo
          dsimp only at hdo
          cases hce : dget nd.connections e with
          | none => rw [hce] at hdo; cases hdo; exact MStep_refl hids
          | some eid =>
              rw [hce] at hdo
              dsimp only at hdo
              cases hdo
              obtain ⟨⟨hlt, hP⟩, _⟩ := hids (s, nid) (dget_mem hm)
              refine ⟨le_refl _, ?_, fun _ _ => rfl, ?_⟩
              · intro i hi
                exact dget_dset_ne _ _ (fun he => hi (he ▸ hP))
              · intro p hp
                obtain ⟨⟨plt, pP⟩, hq⟩ := hids p hp
                refine ⟨⟨plt, pP⟩, ?_⟩
                intro q hq'
                apply hq
                by_cases hpn : p.2 = nid
                · unfold connsOf at hq' ⊢
                  rw [hpn] at hq' ⊢
                  dsimp only at hq'
                  rw [dget_dset_eq] at hq'
                  rw [hnd]
                  exact mem_ddel_sub hq'
                · unfold connsOf at hq' ⊢
                  dsimp only at hq'
                  rw [dget_dset_ne _ _ hpn] at hq'
                  exact hq'

theorem add_nodeR_mstep {P : Nat → Prop} {h : Heap} {g : GraphR}
    {lbl : Nat} {h' : Heap} {g' : GraphR}
    (hfresh : ∀ i, h.next ≤ i → P i)
    (hids : IdsOn h g (fun i => i < h.next ∧ P i))
    (hdo : add_nodeR h g lbl = (h', g')) : MStep P h g h' g' := by
  unfold add_nodeR at hdo
  by_cases hhas : dhas g.node_map lbl = true
  · rw [if_pos hhas] at hdo
    cases hdo
    exact MStep_refl hids
  · rw [if_neg hhas] at hdo
    unfold allocNode at hdo
    dsimp only at hdo
    cases hdo
    have hPn : P h.next := hfresh _ (le_refl _)
    refine ⟨Nat.le_succ _, ?_, fun _ _ => rfl, ?_⟩
    · intro i hi
      exact dget_dset_ne _ _ (fun he => hi (he ▸ hPn))
    · intro p hp
      rcases mem_dset_elim hp with hp' | hp'
      · subst hp'
        refine ⟨⟨Nat.lt_succ_self _, hPn⟩, ?_⟩
        intro q hq
        unfold connsOf at hq
        dsimp only at hq
        rw [dget_dset_eq] at hq
        simp at hq
      · obtain ⟨⟨plt, pP⟩, hq⟩ := hids p hp'
        refine ⟨⟨Nat.lt_succ_of_lt plt, pP⟩, ?_⟩
        intro q hq'
        unfold connsOf at hq'
        dsimp only at hq'
        rw [dget_dset_ne _ _ (Nat.ne_of_lt plt)] at hq'
        have hb := hq q (by unfold connsOf; exact hq')
        exact ⟨Nat.lt_succ_of_lt hb.1, hb.2⟩

theorem connectAtR_mstep {P : Nat → Prop} {h : Heap} {g : GraphR}
    {s e : Nat} {eo : EdgeO} {h' : Heap} {g' : GraphR}
    (hfresh : ∀ i, h.next ≤ i → P i)
    (hids : IdsOn h g (fun i => i < h.next ∧ P i))
    (hdo : connectAtR h g s e eo = (h', g')) : MStep P h g h' g' := by
  unfold connectAtR at hdo
  cases hm : dget g.node_map s with
  | none => rw [hm] at hdo; cases hdo; exact MStep_refl hids
  | some nid =>
      rw [hm] at hdo
      dsimp only at hdo
      cases hnd : dget h.nodes nid with
      | none => rw [hnd] at hdo; cases hdo; exact MStep_refl hids
      | some nd =>
          rw [hnd] at hdo
          dsimp only at hdo
          cases hdo
          have hPn : P h.next := hfresh _ (le_refl _)
          obtain ⟨⟨hlt, hP⟩, hqn⟩ := hids (s, nid) (dget_mem hm)
          refine ⟨Nat.le_succ _, ?_, ?_, ?_⟩
          · intro i hi
            exact dget_dset_ne _ _ (fun he => hi (he ▸ hP))
          · intro i hi
            exact dget_dset_ne _ _ (fun he => hi (he ▸ hPn))
          · intro p hp
            obtain ⟨⟨plt, pP⟩, hq⟩ := hids p hp
            refine ⟨⟨Nat.lt_succ_of_lt plt, pP⟩, ?_⟩
            intro q hq'
            by_cases hpn : p.2 = nid
            · unfold connsOf at hq'
              rw [hpn] at hq'
              dsimp only at hq'
              rw [dget_dset_eq] at hq'
              dsimp only at hq'
              rcases mem_dset_elim hq' with hq'' | hq''
              · subst hq''
                exact ⟨Nat.lt_succ_self _, hPn⟩
              · have := hqn q (by unfold connsOf; rw [hnd]; exact hq'')
                exact ⟨Nat.lt_succ_of_lt this.1, this.2⟩
            · unfold connsOf at hq'
              dsimp only at hq'
              rw [dget_dset_ne _ _ hpn] at hq'
              have := hq q (by unfold connsOf; exact hq')
              exact ⟨Nat.lt_succ_of_lt this.1, this.2⟩

theorem addConnR_mstep {P : Nat → Prop} {h : Heap} {g : GraphR}
    {s e : Nat} {w lb ub fl : Option Int} {h' : Heap} {g' : GraphR}
    (hfresh : ∀ i, h.next ≤ i → P i)
    (hids : IdsOn h g (fun i => i < h.next ∧ P i))
    (hdo : addConnR h g s e w lb ub fl = (h', g')) : MStep P h g h' g' := by
  unfold addConnR at hdo
  have m₁ : MStep P h g (add_nodeR h g s).1 (add_nodeR h g s).2 :=
    add_nodeR_mstep hfresh hids rfl
  have hfresh1 : ∀ i, (add_nodeR h g s).1.next ≤ i → P i :=
    fun i hi => hfresh i (le_trans m₁.1 hi)
  have m₂ : MStep P (add_nodeR h g s).1 (add_nodeR h g s).2
      (add_nodeR (add_nodeR h g s).1 (add_nodeR h g s).2 e).1
      (add_nodeR (add_nodeR h g s).1 (add_nodeR h g s).2 e).2 :=
    add_nodeR_mstep hfresh1 m₁.2.2.2 rfl
  have hfresh2 :
      ∀ i, (add_nodeR (add_nodeR h g s).1 (add_nodeR h g s).2 e).1.next ≤ i →
        P i :=
    fun i hi => hfresh1 i (le_trans m₂.1 hi)
  by_cases hdir : (g.directed || decide (s ≤ e)) = true
  · rw [if_pos hdir] at hdo
    exact MStep_trans (MStep_trans m₁ m₂)
      (connectAtR_mstep hfresh2 m₂.2.2.2 hdo)
  · rw [if_neg hdir] at hdo
    exact MStep_trans (MStep_trans m₁ m₂)
      (connectAtR_mstep hfresh2 m₂.2.2.2 hdo)

theorem applyMut_mstep {P : Nat → Prop} {h : Heap} {g : GraphR}
    {mu : Mut} {h' : Heap} {g' : GraphR}
    (hfresh : ∀ i, h.next ≤ i → P i)
    (hids : IdsOn h g (fun i => i < h.next ∧ P i))
    (hdo : applyMut h g mu = (h', g')) : MStep P h g h' g' := by
  cases mu with
  | setValue lbl v => exact setValueR_mstep hids hdo
  | setWeight s e w => exact setEdgeAttrR_mstep hids hdo
  | setLbound s e w => exact setEdgeAttrR_mstep hids hdo
  | setUbound s e w => exact setEdgeAttrR_mstep hids hdo
  | setFlux s e w => exact setEdgeAttrR_mstep hids hdo
  | addConn s e w lb ub fl => exact addConnR_mstep hfresh hids hdo
  | removeConn s e => exact removeConnR_mstep hids hdo

theorem applyMuts_mstep {P : Nat → Prop} :
    ∀ (ms : List Mut) (h : Heap) (g : GraphR) (h' : Heap) (g' : GraphR),
      (∀ i, h.next ≤ i → P i) → IdsOn h g (fun i => i < h.next ∧ P i) →
      applyMuts h g ms = (h', g') → MStep P h g h' g' := by
  intro ms
  induction ms with
  | nil =>
      intro h g h' g' _ hids hdo
      cases hdo
      exact MStep_refl hids
  | cons mu ms ih =>
      intro h g h' g' hfresh hids hdo
      unfold applyMuts at hdo
      have m₁ : MStep P h g (applyMut h g mu).1 (applyMut h g mu).2 :=
        applyMut_mstep hfresh hids rfl
      have hfresh1 : ∀ i, (applyMut h g mu).1.next ≤ i → P i :=
        fun i hi => hfresh i (le_trans m₁.1 hi)
      exact MStep_trans m₁ (ih _ _ _ _ hfresh1 m₁.2.2.2 hdo)

theorem edge_copy_spec (h : Heap) (eid : Nat) :
    (edge_copy h eid).1.nodes = h.nodes ∧
    (edge_copy h eid).1.next = h.next + 1 ∧
    (edge_copy h eid).2 = h.next ∧
    (∀ i, i ≠ h.next → dget (edge_copy h eid).1.edges i = dget h.edges i) ∧
    (∀ eo, dget h.edges eid = some eo →
      dget (edge_copy h eid).1.edges (edge_copy h eid).2 = some eo) := by
  unfold edge_copy allocEdge
  cases he : dget h.edges eid with
  | none =>
      dsimp only
      refine ⟨rfl, rfl, rfl, ?_, ?_⟩
      · intro i hi
        exact dget_dset_ne _ _ hi
      · intro eo heo
        cases heo
  | some eo₀ =>
      dsimp only
      refine ⟨rfl, rfl, rfl, ?_, ?_⟩
      · intro i hi
        exact dget_dset_ne _ _ hi
      · intro eo heo
        cases heo
        exact dget_dset_eq _ _ _

theorem node_copy_conns_spec :
    ∀ (conns : List (Nat × Nat)) (h : Heap),
      (∀ q ∈ conns, q.2 < h.next) →
      (node_copy_conns h conns).1.nodes = h.nodes ∧
      h.next ≤ (node_copy_conns h conns).1.next ∧
      (∀ i, i < h.next →
        dget (node_copy_conns h conns).1.edges i = dget h.edges i) ∧
      dkeys (node_copy_conns h conns).2 = dkeys conns ∧
      (∀ q ∈ (node_copy_conns h conns).2,
        h.next ≤ q.2 ∧ q.2 < (node_copy_conns h conns).1.next) ∧
      (∀ k eid eo, dget conns k = some eid → dget h.edges eid = some eo →
        ∃ eid', dget (node_copy_conns h conns).2 k = some eid' ∧
          dget (node_copy_conns h conns).1.edges eid' = some eo) := by
  intro conns
  induction conns with
  | nil =>
      intro h _
      refine ⟨rfl, le_refl _, fun i _ => rfl, rfl, ?_, ?_⟩
      · intro q hq
        exact absurd hq (List.not_mem_nil q)
      · intro k eid eo hk
        cases hk
  | cons p rest ih =>
      obtain ⟨k₀, eid₀⟩ := p
      intro h hlt
      obtain ⟨e1, e2, e3, e4, e5⟩ := edge_copy_spec h eid₀
      have hlt' : ∀ q ∈ rest, q.2 < (edge_copy h eid₀).1.next := by
        intro q hq
        rw [e2]
        exact Nat.lt_succ_of_lt (hlt q (List.mem_cons_of_mem _ hq))
      obtain ⟨i1, i2, i3, i4, i5, i6⟩ := ih (edge_copy h eid₀).1 hlt'
      have hstep : node_copy_conns h ((k₀, eid₀) :: rest) =
          ((node_copy_conns (edge_copy h eid₀).1 rest).1,
           (k₀, (edge_copy h eid₀).2) ::
             (node_copy_conns (edge_copy h eid₀).1 rest).2) := rfl
      rw [hstep]
      have hnn : h.next < (edge_copy h eid₀).1.next := by
        rw [e2]; exact Nat.lt_succ_self _
      refine ⟨i1.trans e1, le_trans (le_of_lt hnn) i2, ?_, ?_, ?_, ?_⟩
      · intro i hi
        rw [i3 i (lt_trans hi hnn)]
        exact e4 i (Nat.ne_of_lt hi)
      · show k₀ :: dkeys (node_copy_conns (edge_copy h eid₀).1 rest).2
          = k₀ :: dkeys rest
        rw [i4]
      · intro q hq
        rcases List.mem_cons.mp hq with hq' | hq'
        · subst hq'
          dsimp only
          rw [e3]
          exact ⟨le_refl _, lt_of_lt_of_le hnn i2⟩
        · obtain ⟨hb1, hb2⟩ := i5 q hq'
          exact ⟨le_trans (le_of_lt hnn) hb1, hb2⟩
      · intro k eid eo hk heo
        by_cases hkk : k₀ = k
        · subst hkk
          have heid : eid = eid₀ := by
            unfold dget at hk
            rw [if_pos rfl] at hk
            cases hk
            rfl
          subst heid
          refine ⟨(edge_copy h eid).2, ?_, ?_⟩
          · unfold dget
            rw [if_pos rfl]
          · rw [i3 (edge_copy h eid).2 (by rw [e3]; exact hnn)]
            exact e5 eo heo
        · have hk' : dget rest k = some eid := by
            unfold dget at hk
            rw [if_neg hkk] at hk
            exact hk
          have heid_lt : eid < h.next :=
            hlt (k, eid) (List.mem_cons_of_mem _ (dget_mem hk'))
          have heo' : dget (edge_copy h eid₀).1.edges eid = some eo := by
            rw [e4 eid (Nat.ne_of_lt heid_lt)]
            exact heo
          obtain ⟨eid', h1, h2⟩ := i6 k eid eo hk' heo'
          refine ⟨eid', ?_, h2⟩
          unfold dget
          rw [if_neg hkk]
          exact h1

theorem node_copy_spec {h : Heap} {nid : Nat} {nd : NodeO}
    (hnd : dget h.nodes nid = some nd)
    (hlt : ∀ q ∈ nd.connections, q.2 < h.next) :
    h.next ≤ (node_copy h nid).1.next ∧
    h.next ≤ (node_copy h nid).2 ∧
    (node_copy h nid).2 < (node_copy h nid).1.next ∧
    (∀ i, i < h.next → dget (node_copy h nid).1.nodes i = dget h.nodes i) ∧
    (∀ i, i < h.next → dget (node_copy h nid).1.edges i = dget h.edges i) ∧
    ∃ nd', dget (node_copy h nid).1.nodes (node_copy h nid).2 = some nd' ∧
      nd'.value = nd.value ∧
      dkeys nd'.connections = dkeys nd.connections ∧
      (∀ q ∈ nd'.connections,
        h.next ≤ q.2 ∧ q.2 < (node_copy h nid).1.next) ∧
      (∀ k eid eo, dget nd.connections k = some eid →
        dget h.edges eid = some eo →
        ∃ eid', dget nd'.connections k = some eid' ∧
          dget (node_copy h nid).1.edges eid' = some eo) := by
  obtain ⟨c1, c2, c3, c4, c5, c6⟩ := node_copy_conns_spec nd.connections h hlt
  have hstep : node_copy h nid =
      (⟨dset (node_copy_conns h nd.connections).1.nodes
          (node_copy_conns h nd.connections).1.next
          ⟨nd.label, nd.value, (node_copy_conns h nd.connections).2⟩,
        (node_copy_conns h nd.connections).1.edges,
        (node_copy_conns h nd.connections).1.next + 1⟩,
       (node_copy_conns h nd.connections).1.next) := by
    unfold node_copy
    rw [hnd]
    rfl
  rw [hstep]
  dsimp only
  refine ⟨le_trans c2 (Nat.le_succ _), c2, Nat.lt_succ_self _, ?_, c3, ?_⟩
  · intro i hi
    rw [dget_dset_ne _ _
      (Nat.ne_of_lt (lt_of_lt_of_le hi c2))]
    rw [c1]
  · refine ⟨⟨nd.label, nd.value, (node_copy_conns h nd.connections).2⟩,
      dget_dset_eq _ _ _, rfl, c4, ?_, ?_⟩
    · intro q hq
      obtain ⟨hb1, hb2⟩ := c5 q hq
      exact ⟨hb1, Nat.lt_succ_of_lt hb2⟩
    · exact c6

theorem graph_copy_nodes_spec :
    ∀ (nm : List (Nat × Nat)) (h : Heap),
      (∀ p ∈ nm, p.2 < h.next ∧ ∀ q ∈ connsOf h p.2, q.2 < h.next) →
      h.next ≤ (graph_copy_nodes h nm).1.next ∧
      (∀ i, i < h.next →
        dget (graph_copy_nodes h nm).1.nodes i = dget h.nodes i) ∧
      (∀ i, i < h.next →
        dget (graph_copy_nodes h nm).1.edges i = dget h.edges i) ∧
      dkeys (graph_copy_nodes h nm).2 = dkeys nm ∧
      (∀ p ∈ (graph_copy_nodes h nm).2,
        (h.next ≤ p.2 ∧ p.2 < (graph_copy_nodes h nm).1.next) ∧
        ∀ q ∈ connsOf (graph_copy_nodes h nm).1 p.2,
          h.next ≤ q.2 ∧ q.2 < (graph_copy_nodes h nm).1.next) ∧
      (∀ lbl nid nd, dget nm lbl = some nid → dget h.nodes nid = some nd →
        ∃ nid' nd', dget (graph_copy_nodes h nm).2 lbl = some nid' ∧
          dget (graph_copy_nodes h nm).1.nodes nid' = some nd' ∧
          nd'.value = nd.value ∧
          dkeys nd'.connections = dkeys nd.connections ∧
          (∀ k eid eo, dget nd.connections k = some eid →
            dget h.edges eid = some eo →
            ∃ eid', dget nd'.connections k = some eid' ∧
              dget (graph_copy_nodes h nm).1.edges eid' = some eo)) := by
  intro nm
  induction nm with
  | nil =>
      intro h _
      refine ⟨le_refl _, fun i _ => rfl, fun i _ => rfl, rfl, ?_, ?_⟩
      · intro p hp
        exact absurd hp (List.not_mem_nil p)
      · intro lbl nid nd hk
        cases hk
  | cons p rest ih =>
      obtain ⟨lbl₀, nid₀⟩ := p
      intro h hok
      obtain ⟨hn0lt, hc0lt⟩ := hok (lbl₀, nid₀) (List.mem_cons_self _ _)
      cases hnd₀ : dget h.nodes nid₀ with
      | none =>
          -- dangling head node id: `node_copy` allocates the default node
          have hstep : graph_copy_nodes h ((lbl₀, nid₀) :: rest) =
              ((graph_copy_nodes (node_copy h nid₀).1 rest).1,
               (lbl₀, (node_copy h nid₀).2) ::
                 (graph_copy_nodes (node_copy h nid₀).1 rest).2) := rfl
          have hcopy : node_copy h nid₀ =
              (⟨dset h.nodes h.next ⟨0, none, []⟩, h.edges, h.next + 1⟩,
               h.next) := by
            unfold node_copy allocNode
            rw [hnd₀]
          have s1 : h.next ≤ (node_copy h nid₀).1.next := by
            rw [hcopy]; exact Nat.le_succ _
          have s2 : h.next ≤ (node_copy h nid₀).2 := by rw [hcopy]
          have s3 : (node_copy h nid₀).2 < (node_copy h nid₀).1.next := by
            rw [hcopy]; exact Nat.lt_succ_self _
          have s4 : ∀ i, i < h.next →
              dget (node_copy h nid₀).1.nodes i = dget h.nodes i := by
            intro i hi
            rw [hcopy]
            exact dget_dset_ne _ _ (Nat.ne_of_lt hi)
          have s5 : ∀ i, i < h.next →
              dget (node_copy h nid₀).1.edges i = dget h.edges i := by
            intro i hi
            rw [hcopy]
          have hok' : ∀ p ∈ rest, p.2 < (node_copy h nid₀).1.next ∧
              ∀ q ∈ connsOf (node_copy h nid₀).1 p.2,
                q.2 < (node_copy h nid₀).1.next := by
            intro p hp
            obtain ⟨hp1, hp2⟩ := hok p (List.mem_cons_of_mem _ hp)
            refine ⟨lt_of_lt_of_le hp1 s1, ?_⟩
            intro q hq
            have hcc : connsOf (node_copy h nid₀).1 p.2 = connsOf h p.2 := by
              unfold connsOf
              rw [s4 p.2 hp1]
            rw [hcc] at hq
            exact lt_of_lt_of_le (hp2 q hq) s1
          obtain ⟨i1, i2, i3, i4, i5, i6⟩ := ih (node_copy h nid₀).1 hok'
          rw [hstep]
          refine ⟨le_trans s1 i1, ?_, ?_, ?_, ?_, ?_⟩
          · intro i hi
            rw [i2 i (lt_of_lt_of_le hi s1), s4 i hi]
          · intro i hi
            rw [i3 i (lt_of_lt_of_le hi s1), s5 i hi]
          · show lbl₀ :: dkeys (graph_copy_nodes (node_copy h nid₀).1 rest).2
              = lbl₀ :: dkeys rest
            rw [i4]
          · intro p hp
            rcases List.mem_cons.mp hp with hp' | hp'
            · subst hp'
              dsimp only
              refine ⟨⟨s2, lt_of_lt_of_le s3 i1⟩, ?_⟩
              intro q hq
              have hnode : dget (graph_copy_nodes (node_copy h nid₀).1 rest).1.nodes
                  (node_copy h nid₀).2 = some ⟨0, none, []⟩ := by
                rw [i2 _ s3, hcopy]
                exact dget_dset_eq _ _ _
              unfold connsOf at hq
              rw [hnode] at hq
              simp at hq
            · obtain ⟨⟨hb1, hb2⟩, hb3⟩ := i5 p hp'
              exact ⟨⟨le_trans s1 hb1, hb2⟩,
                fun q hq => ⟨le_trans s1 (hb3 q hq).1, (hb3 q hq).2⟩⟩
          · intro lbl nid nd hk hnd
            by_cases hll : lbl₀ = lbl
            · subst hll
              have hnid : nid = nid₀ := by
                unfold dget at hk
                rw [if_pos rfl] at hk
                cases hk
                rfl
              subst hnid
              rw [hnd₀] at hnd
              cases hnd
            · have hk' : dget rest lbl = some nid := by
                unfold dget at hk
                rw [if_neg hll] at hk
                exact hk
              have hnlt : nid < h.next :=
                (hok (lbl, nid) (List.mem_cons_of_mem _ (dget_mem hk'))).1
              have hnd' : dget (node_copy h nid₀).1.nodes nid = some nd := by
                rw [s4 nid hnlt]
                exact hnd
              obtain ⟨nid', nd', j1, j2, j3, j4, j5⟩ := i6 lbl nid nd hk' hnd'
              refine ⟨nid', nd', ?_, j2, j3, j4, ?_⟩
              · unfold dget
                rw [if_neg hll]
                exact j1
              · intro k eid eo hke heo
                have helt : eid < h.next := by
                  have hmem : (k, eid) ∈ connsOf h nid := by
                    unfold connsOf
                    rw [hnd]
                    exact dget_mem hke
                  exact (hok (lbl, nid)
                    (List.mem_cons_of_mem _ (dget_mem hk'))).2 _ hmem
                exact j5 k eid eo hke (by rw [s5 eid helt]; exact heo)
      | some nd₀ =>
          have hc0lt' : ∀ q ∈ nd₀.connections, q.2 < h.next := by
            intro q hq
            apply hc0lt
            unfold connsOf
            rw [hnd₀]
            exact hq
          obtain ⟨s1, s2, s3, s4, s5, nd₀', hnd₀', hval₀, hkeys₀, hb₀, hl₀⟩ :=
            node_copy_spec hnd₀ hc0lt'
          have hstep : graph_copy_nodes h ((lbl₀, nid₀) :: rest) =
              ((graph_copy_nodes (node_copy h nid₀).1 rest).1,
               (lbl₀, (node_copy h nid₀).2) ::
                 (graph_copy_nodes (node_copy h nid₀).1 rest).2) := rfl
          have hok' : ∀ p ∈ rest, p.2 < (node_copy h nid₀).1.next ∧
              ∀ q ∈ connsOf (node_copy h nid₀).1 p.2,
                q.2 < (node_copy h nid₀).1.next := by
            intro p hp
            obtain ⟨hp1, hp2⟩ := hok p (List.mem_cons_of_mem _ hp)
            refine ⟨lt_of_lt_of_le hp1 s1, ?_⟩
            intro q hq
            have hcc : connsOf (node_copy h nid₀).1 p.2 = connsOf h p.2 := by
              unfold connsOf
              rw [s4 p.2 hp1]
            rw [hcc] at hq
            exact lt_of_lt_of_le (hp2 q hq) s1
          obtain ⟨i1, i2, i3, i4, i5, i6⟩ := ih (node_copy h nid₀).1 hok'
          rw [hstep]
          refine ⟨le_trans s1 i1, ?_, ?_, ?_, ?_, ?_⟩
          · intro i hi
            rw [i2 i (lt_of_lt_of_le hi s1), s4 i hi]
          · intro i hi
            rw [i3 i (lt_of_lt_of_le hi s1), s5 i hi]
          · show lbl₀ :: dkeys (graph_copy_nodes (node_copy h nid₀).1 rest).2
              = lbl₀ :: dkeys rest
            rw [i4]
          · intro p hp
            rcases List.mem_cons.mp hp with hp' | hp'
            · subst hp'
              dsimp only
              refine ⟨⟨s2, lt_of_lt_of_le s3 i1⟩, ?_⟩
              intro q hq
              have hnode : dget (graph_copy_nodes (node_copy h nid₀).1 rest).1.nodes
                  (node_copy h nid₀).2 = some nd₀' := by
                rw [i2 _ s3]
                exact hnd₀'
              unfold connsOf at hq
              rw [hnode] at hq
              obtain ⟨hq1, hq2⟩ := hb₀ q hq
              exact ⟨hq1, lt_of_lt_of_le hq2 i1⟩
            · obtain ⟨⟨hb1, hb2⟩, hb3⟩ := i5 p hp'
              exact ⟨⟨le_trans s1 hb1, hb2⟩,
                fun q hq => ⟨le_trans s1 (hb3 q hq).1, (hb3 q hq).2⟩⟩
          · intro lbl nid nd hk hnd
            by_cases hll : lbl₀ = lbl
            · subst hll
              have hnid : nid = nid₀ := by
                unfold dget at hk
                rw [if_pos rfl] at hk
                cases hk
                rfl
              subst hnid
              rw [hnd₀] at hnd
              cases hnd
              refine ⟨(node_copy h nid).2, nd₀', ?_, ?_, hval₀, hkeys₀, ?_⟩
              · unfold dget
                rw [if_pos rfl]
              · rw [i2 _ s3]
                exact hnd₀'
              · intro k eid eo hke heo
                obtain ⟨eid', he1, he2⟩ := hl₀ k eid eo hke heo
                refine ⟨eid', he1, ?_⟩
                have helt' : eid' < (node_copy h nid).1.next :=
                  (hb₀ (k, eid') (dget_mem he1)).2
                rw [i3 eid' helt']
                exact he2
            · have hk' : dget rest lbl = some nid := by
                unfold dget at hk
                rw [if_neg hll] at hk
                exact hk
              have hnlt : nid < h.next :=
                (hok (lbl, nid) (List.mem_cons_of_mem _ (dget_mem hk'))).1
              have hnd' : dget (node_copy h nid₀).1.nodes nid = some nd := by
                rw [s4 nid hnlt]
                exact hnd
              obtain ⟨nid', nd', j1, j2, j3, j4, j5⟩ := i6 lbl nid nd hk' hnd'
              refine ⟨nid', nd', ?_, j2, j3, j4, ?_⟩
              · unfold dget
                rw [if_neg hll]
                exact j1
              · intro k eid eo hke heo
                have helt : eid < h.next := by
                  have hmem : (k, eid) ∈ connsOf h nid := by
                    unfold connsOf
                    rw [hnd]
                    exact dget_mem hke
                  exact (hok (lbl, nid)
                    (List.mem_cons_of_mem _ (dget_mem hk'))).2 _ hmem
                exact j5 k eid eo hke (by rw [s5 eid helt]; exact heo)

theorem dget_none_of_keys {α β : Type} {l : List (Nat × α)}
    {l' : List (Nat × β)} (hk : dkeys l' = dkeys l) {k : Nat}
    (h : dget l k = none) : dget l' k = none := by
  cases h' : dget l' k with
  | none => rfl
  | some v =>
      exfalso
      have hkm : k ∈ dkeys l := by
        rw [← hk]
        exact (mem_dkeys_iff_dget l' k).mpr ⟨v, h'⟩
      obtain ⟨w, hw⟩ := (mem_dkeys_iff_dget l k).mp hkm
      rw [h] at hw
      cases hw

theorem graph_copy_spec {h : Heap} {g : GraphR} {h' : Heap} {g₂ : GraphR}
    (hok : IdsOn h g (fun i => i < h.next)) (hres : Resolves h g)
    (hcopy : graph_copy h g = (h', g₂)) :
    h.next ≤ h'.next ∧
    (∀ i, i < h.next → dget h'.nodes i = dget h.nodes i) ∧
    (∀ i, i < h.next → dget h'.edges i = dget h.edges i) ∧
    IdsOn h' g₂ (fun i => h.next ≤ i) ∧
    IdsOn h' g₂ (fun i => i < h'.next) ∧
    (∀ lbl, obsValue h' g₂ lbl = obsValue h g lbl) ∧
    (∀ s e, obsEdge h' g₂ s e = obsEdge h g s e) := by
  have hok' : ∀ p ∈ g.node_map, p.2 < h.next ∧
      ∀ q ∈ connsOf h p.2, q.2 < h.next := hok
  obtain ⟨c1, c2, c3, c4, c5, c6⟩ := graph_copy_nodes_spec g.node_map h hok'
  have hstep : graph_copy h g = ((graph_copy_nodes h g.node_map).1,
      ⟨g.directed, (graph_copy_nodes h g.node_map).2⟩) := rfl
  rw [hstep] at hcopy
  cases hcopy
  refine ⟨c1, c2, c3, ?_, ?_, ?_, ?_⟩
  · intro p hp
    obtain ⟨⟨hb1, _⟩, hb3⟩ := c5 p hp
    exact ⟨hb1, fun q hq => (hb3 q hq).1⟩
  · intro p hp
    obtain ⟨⟨_, hb2⟩, hb3⟩ := c5 p hp
    exact ⟨hb2, fun q hq => (hb3 q hq).2⟩
  · intro lbl
    unfold obsValue
    cases hm : dget g.node_map lbl with
    | none =>
        rw [dget_none_of_keys c4 hm]
    | some nid =>
        have hrs := (hres (lbl, nid) (dget_mem hm)).1
        cases hnd : dget h.nodes nid with
        | none => rw [hnd] at hrs; cases hrs
        | some nd =>
            obtain ⟨nid', nd', j1, j2, j3, _, _⟩ := c6 lbl nid nd hm hnd
            show (match dget (graph_copy_nodes h g.node_map).2 lbl with
              | none => none
              | some nid =>
                  match dget (graph_copy_nodes h g.node_map).1.nodes nid with
                  | none => none
                  | some nd => some nd.value) = _
            rw [j1]
            dsimp only
            rw [j2]
            dsimp only
            rw [j3, hnd]
  · intro s e
    unfold obsEdge
    cases hm : dget g.node_map s with
    | none =>
        rw [dget_none_of_keys c4 hm]
    | some nid =>
        obtain ⟨hrs, hre⟩ := hres (s, nid) (dget_mem hm)
        cases hnd : dget h.nodes nid with
        | none => rw [hnd] at hrs; cases hrs
        | some nd =>
            obtain ⟨nid', nd', j1, j2, _, j4, j5⟩ := c6 s nid nd hm hnd
            show (match dget (graph_copy_nodes h g.node_map).2 s with
              | none => none
              | some nid =>
                  match dget (graph_copy_nodes h g.node_map).1.nodes nid with
                  | none => none
                  | some nd =>
                      match dget nd.connections e with
                      | none => none
                      | some eid =>
                          dget (graph_copy_nodes h g.node_map).1.edges eid) = _
            rw [j1]
            dsimp only
            rw [j2]
            dsimp only
            cases hce : dget nd.connections e with
            | none =>
                rw [dget_none_of_keys j4 hce, hnd]
                dsimp only
                rw [hce]
            | some eid =>
                have heq : (dget h.edges eid).isSome = true := by
                  apply hre (e, eid)
                  unfold connsOf
                  rw [hnd]
                  exact dget_mem hce
                cases heo : dget h.edges eid with
                | none => rw [heo] at heq; cases heq
                | some eo =>
                    obtain ⟨eid', k1, k2⟩ := j5 e eid eo hce heo
                    rw [k1]
                    dsimp only
                    rw [k2, hnd]
                    dsimp only
                    rw [hce]
                    dsimp only
                    rw [heo]

/-- **C8.** `graph.copy()` produces a fully independent deep clone
sharing no `Node` or `Edge` object with the original: the clone observes
the same node values and edge attributes, its node and edge object ids
are disjoint from the original's, and any subsequent sequence of
mutations of the copy (node values; edge weight, lbound, capacity, flux;
adding or removing connections) leaves every node and edge attribute of
the original unchanged — and vice versa. -/
theorem C8_copy_independent (h₀ : Heap) (g₁ : GraphR) (h₁ : Heap)
    (g₂ : GraphR) (hok : IdsOn h₀ g₁ (fun i => i < h₀.next))
    (hres : Resolves h₀ g₁) (hcopy : graph_copy h₀ g₁ = (h₁, g₂)) :
    ((∀ lbl, obsValue h₁ g₂ lbl = obsValue h₀ g₁ lbl) ∧
     (∀ s e, obsEdge h₁ g₂ s e = obsEdge h₀ g₁ s e)) ∧
    ((∀ i, i ∈ nodeIds g₁ → i ∉ nodeIds g₂) ∧
     (∀ i, i ∈ edgeIds h₁ g₁ → i ∉ edgeIds h₁ g₂)) ∧
    (∀ ms h₂ g₂', applyMuts h₁ g₂ ms = (h₂, g₂') →
       (∀ lbl, obsValue h₂ g₁ lbl = obsValue h₀ g₁ lbl) ∧
       (∀ s e, obsEdge h₂ g₁ s e = obsEdge h₀ g₁ s e)) ∧
    (∀ ms h₂ g₁', applyMuts h₁ g₁ ms = (h₂, g₁') →
       (∀ lbl, obsValue h₂ g₂ lbl = obsValue h₁ g₂ lbl) ∧
       (∀ s e, obsEdge h₂ g₂ s e = obsEdge h₁ g₂ s e)) := by
  obtain ⟨hle, hagN, hagE, hge, hlt2, hov, hoe⟩ :=
    graph_copy_spec hok hres hcopy
  refine ⟨⟨hov, hoe⟩, ⟨?_, ?_⟩, ?_, ?_⟩
  · intro i hi1 hi2
    obtain ⟨p, hp, hpi⟩ := List.mem_map.mp hi1
    obtain ⟨q, hq, hqi⟩ := List.mem_map.mp hi2
    have h1 : i < h₀.next := hpi ▸ (hok p hp).1
    have h2 : h₀.next ≤ i := hqi ▸ (hge q hq).1
    exact absurd h1 (not_lt.mpr h2)
  · intro i hi1 hi2
    obtain ⟨l, hl, hil⟩ := List.mem_join.mp hi1
    obtain ⟨p, hp, hpl⟩ := List.mem_map.mp hl
    obtain ⟨q, hq, hqi⟩ := List.mem_map.mp (hpl ▸ hil)
    have hcc : connsOf h₁ p.2 = connsOf h₀ p.2 := by
      unfold connsOf
      rw [hagN p.2 (hok p hp).1]
    rw [hcc] at hq
    have h1 : i < h₀.next := hqi ▸ ((hok p hp).2 q hq)
    obtain ⟨l', hl', hil'⟩ := List.mem_join.mp hi2
    obtain ⟨p', hp', hpl'⟩ := List.mem_map.mp hl'
    obtain ⟨q', hq', hqi'⟩ := List.mem_map.mp (hpl' ▸ hil')
    have h2 : h₀.next ≤ i := hqi' ▸ ((hge p' hp').2 q' hq')
    exact absurd h1 (not_lt.mpr h2)
  · intro ms h₂ g₂' hdo
    have hfresh : ∀ i, h₁.next ≤ i → h₀.next ≤ i :=
      fun i hi => le_trans hle hi
    have hids : IdsOn h₁ g₂ (fun i => i < h₁.next ∧ h₀.next ≤ i) :=
      IdsOn_and hlt2 hge
    have m := applyMuts_mstep ms h₁ g₂ h₂ g₂' hfresh hids hdo
    have hagN' : ∀ i, i < h₀.next → dget h₂.nodes i = dget h₀.nodes i := by
      intro i hi
      rw [m.2.1 i (not_le.mpr hi)]
      exact hagN i hi
    have hagE' : ∀ i, i < h₀.next → dget h₂.edges i = dget h₀.edges i := by
      intro i hi
      rw [m.2.2.1 i (not_le.mpr hi)]
      exact hagE i hi
    exact ⟨obsValue_congr hok hagN', obsEdge_congr hok hagN' hagE'⟩
  · intro ms h₂ g₁' hdo
    have hfresh : ∀ i, h₁.next ≤ i → i < h₀.next ∨ h₁.next ≤ i :=
      fun i hi => Or.inr hi
    have hok₁ : IdsOn h₁ g₁ (fun i => i < h₀.next) :=
      IdsOn_congr hok (fun i hi => hagN i hi)
    have hids : IdsOn h₁ g₁
        (fun i => i < h₁.next ∧ (i < h₀.next ∨ h₁.next ≤ i)) :=
      IdsOn_mono (fun i hi => ⟨lt_of_lt_of_le hi hle, Or.inl hi⟩) hok₁
    have m := applyMuts_mstep ms h₁ g₁ h₂ g₁' hfresh hids hdo
    have hband : ∀ i, h₀.next ≤ i ∧ i < h₁.next →
        ¬(i < h₀.next ∨ h₁.next ≤ i) := by
      intro i hi hc
      rcases hc with hc | hc
      · exact absurd hc (not_lt.mpr hi.1)
      · exact absurd hc (not_le.mpr hi.2)
    have hidsQ : IdsOn h₁ g₂ (fun i => h₀.next ≤ i ∧ i < h₁.next) :=
      IdsOn_and hge hlt2
    have hN : ∀ i, h₀.next ≤ i ∧ i < h₁.next →
        dget h₂.nodes i = dget h₁.nodes i :=
      fun i hi => m.2.1 i (hband i hi)
    have hE : ∀ i, h₀.next ≤ i ∧ i < h₁.next →
        dget h₂.edges i = dget h₁.edges i :=
      fun i hi => m.2.2.1 i (hband i hi)
    exact ⟨obsValue_congr hidsQ hN, obsEdge_congr hidsQ hN hE⟩

instance (h : Heap) (g : GraphR) (P : Nat → Prop) [DecidablePred P] :
    Decidable (IdsOn h g P) := by
  unfold IdsOn; infer_instance

instance (h : Heap) (g : GraphR) : Decidable (Resolves h g) := by
  unfold Resolves; infer_instance

/-- A concrete original: the directed graph with the single arc 1 → 2
(weight 3, capacity 7, flux 1), built in the heap model. -/
def c8pair : Heap × GraphR :=
  applyMut ⟨[], [], 0⟩ ⟨true, []⟩ (.addConn 1 2 (some 3) none (some 7) (some 1))

def h0ex : Heap := c8pair.1

def g1ex : GraphR := c8pair.2

def h1ex : Heap := (graph_copy h0ex g1ex).1

def g2ex : GraphR := (graph_copy h0ex g1ex).2

theorem C8_copy_independent_witness :
    obsEdge (applyMuts h1ex g2ex [Mut.setFlux 1 2 (some 99)]).1 g1ex 1 2
      = obsEdge h0ex g1ex 1 2 :=
  ((C8_copy_independent h0ex g1ex h1ex g2ex (by decide) (by decide)
      rfl).2.2.1 [Mut.setFlux 1 2 (some 99)]
    (applyMuts h1ex g2ex [Mut.setFlux 1 2 (some 99)]).1
    (applyMuts h1ex g2ex [Mut.setFlux 1 2 (some 99)]).2 rfl).2 1 2
